import Mathlib

/-!
Shallow embedding of the logbook search/retrieval core
(`src/search/tokenizer.ts`, `src/search/engine.ts`, and the
`logbook_read` handler in `src/index.ts`) together with proofs of the
specification claims.

Strings are modelled as `List Char`; JS numbers holding integral values
(timestamps, indices, lengths) as `Nat`/`Int`; the floating-point
relevance scores as real numbers.  JS `lowercase`/whitespace behaviour
is modelled over its ASCII fragment, which is the fragment the claims
exercise.
-/

namespace Logbook

/-! ### Tokenizer (`src/search/tokenizer.ts`) -/

/-- Characters matched by `TOKENIZER_RE = /[\s\-_./\\:,;()[\]{}<>'"]+/`:
whitespace plus the fixed punctuation set. -/
def isSepChar (c : Char) : Bool :=
  c.isWhitespace ||
    c ∈ ['-', '_', '.', '/', '\\', ':', ',', ';', '(', ')', '[', ']',
         Char.ofNat 123, Char.ofNat 125, '<', '>', Char.ofNat 39, Char.ofNat 34]

/-- `text.toLowerCase()` (ASCII fragment). -/
def toLowerStr (l : List Char) : List Char := l.map Char.toLower

/-- Split on every single separator character, keeping empty pieces. -/
def splitSingle : List Char → List Char → List (List Char)
  | [], cur => [cur.reverse]
  | c :: t, cur =>
      if isSepChar c then cur.reverse :: splitSingle t []
      else splitSingle t (c :: cur)

/-- Drop the empty pieces produced *between* two adjacent separators,
keeping the final piece even when empty. -/
def collapseMid : List (List Char) → List (List Char)
  | [] => []
  | [x] => [x]
  | x :: rest => if x.isEmpty then collapseMid rest else x :: collapseMid rest

/-- `str.split(TOKENIZER_RE)`: pieces of `str` between *maximal* runs of
separator characters (the regex has a `+`).  As in JS, a leading
(resp. trailing) separator run produces a leading (resp. trailing) empty
piece, and the empty string splits to `[""]`.  Computed by splitting at
every separator and then collapsing the interior empty pieces an adjacent
pair of separators leaves behind. -/
def splitSeps (l : List Char) : List (List Char) :=
  match splitSingle l [] with
  | [] => []
  | x :: rest => x :: collapseMid rest

/-- `tokenize` from `src/search/tokenizer.ts`: lowercase, split on the
separator set, drop tokens of length ≤ 1. -/
def tokenize (text : List Char) : List (List Char) :=
  (splitSeps (toLowerStr text)).filter (fun t => decide (1 < t.length))

/-! ### Edit distance (`levenshteinDistance` in `src/search/tokenizer.ts`) -/

/-- Inner loop of the single-row DP: given the current character `x` of
`a`, the remaining characters of `b`, the remaining entries of the old
row, the old row's entry one to the left (`diag`) and the new row's
previous entry (`left`), produce the remaining entries of the new row.
Mirrors `dp[j] = a[i-1] === b[j-1] ? prev : 1 + min(prev, dp[j], dp[j-1])`. -/
def levRow (x : Char) : List Char → List Nat → Nat → Nat → List Nat
  | y :: bs, dj :: ds, diag, left =>
      let v := if x = y then diag else 1 + min diag (min dj left)
      v :: levRow x bs ds dj v
  | _, _, _, _ => []

/-- One iteration of the outer loop: `prev = dp[0]; dp[0] = i; ...`. -/
def levNextRow (x : Char) (b : List Char) (row : List Nat) : List Nat :=
  match row with
  | [] => []
  | d0 :: ds => (d0 + 1) :: levRow x b ds d0 (d0 + 1)

/-- `levenshteinDistance` from `src/search/tokenizer.ts`: the classic
single-row DP.  `dp` starts as `[0, 1, ..., n]`, one row update per
character of `a`, and the answer is the last entry `dp[n]`. -/
def levenshteinDistance (a b : List Char) : Nat :=
  (a.foldl (fun r x => levNextRow x b r) (List.range (b.length + 1))).getLastD 0

/-- Reference recursive Levenshtein distance (head recursion). -/
def lev : List Char → List Char → Nat
  | [], ys => ys.length
  | x :: xs, [] => (x :: xs).length
  | x :: xs, y :: ys =>
      if x = y then lev xs ys
      else 1 + min (lev xs (y :: ys)) (min (lev (x :: xs) ys) (lev xs ys))
termination_by xs ys => xs.length + ys.length
decreasing_by all_goals simp <;> omega

/-- Edit scripts: `Edits a b n` holds when `a` can be transformed into `b`
by an alignment using `n` single-character insertions, deletions and
substitutions (matches are free). -/
inductive Edits : List Char → List Char → Nat → Prop
  | nil : Edits [] [] 0
  | keep {xs ys n} (x : Char) : Edits xs ys n → Edits (x :: xs) (x :: ys) n
  | subst {xs ys n} (x y : Char) : Edits xs ys n → Edits (x :: xs) (y :: ys) (n + 1)
  | del {xs ys n} (x : Char) : Edits xs ys n → Edits (x :: xs) ys (n + 1)
  | ins {xs ys n} (y : Char) : Edits xs ys n → Edits xs (y :: ys) (n + 1)

/-! #### The single-row DP computes `lev` -/

/-- `lev` on reversed arguments: the form matching the prefix-indexed DP
table, which peels characters from the right end. -/
def levR (u v : List Char) : Nat := lev u.reverse v.reverse

/-- The DP row for consumed prefix `p` of `a`: entry `j` (counting from
the piece of `b` already in `acc`) is `levR p (acc ++ b.take j)`. -/
def rowFrom (p acc : List Char) : List Char → List Nat
  | [] => [levR p acc]
  | y :: bs => levR p acc :: rowFrom p (acc ++ [y]) bs

/-! ### Substring search (JS `String.indexOf`) and trimming -/

def indexOfAux (pat : List Char) : List Char → Nat → Option Nat
  | [], i => if pat.isPrefixOf ([] : List Char) then some i else none
  | c :: t, i => if pat.isPrefixOf (c :: t) then some i else indexOfAux pat t (i + 1)

/-- `s.indexOf(pat, start)` (for `start ≤ s.length`, the only reachable
regime): the least index `≥ start` at which `pat` occurs in `s`. -/
def indexOfFrom (s pat : List Char) (start : Nat) : Option Nat :=
  (indexOfAux pat (s.drop start) 0).map (· + start)

/-- `s.includes(pat)` / case-adjusted substring test. -/
def containsSub (s pat : List Char) : Bool :=
  (indexOfFrom s pat 0).isSome

/-- `str.trim()` (ASCII whitespace fragment). -/
def trimStr (l : List Char) : List Char :=
  ((l.dropWhile Char.isWhitespace).reverse.dropWhile Char.isWhitespace).reverse

/-! ### `SearchEngine.findAllMatchPositions` (`src/search/engine.ts`) -/

def MAX_MATCH_POSITIONS : Nat := 100

/-- Mutable scan state of `findAllMatchPositions`: the `positions` array
(in insertion order, duplicates possible) and the `positionTerms` map
(insertion-ordered association list). -/
structure ScanState where
  positions : List Nat
  positionTerms : List (Nat × List (List Char))

/-- `positionTerms` update inside `addPosition`. -/
def updateTerms : List (Nat × List (List Char)) → Nat → List Char →
    List (Nat × List (List Char))
  | [], pos, term => [(pos, [term])]
  | (p, ts) :: rest, pos, term =>
      if p = pos then (p, if term ∈ ts then ts else ts ++ [term]) :: rest
      else (p, ts) :: updateTerms rest pos term

/-- `addPosition(pos, term)` from `findAllMatchPositions`. -/
def addPosition (st : ScanState) (pos : Nat) (term : List Char) : ScanState :=
  { positions := st.positions ++ [pos]
    positionTerms := updateTerms st.positionTerms pos term }

/-- `positionTerms.get(pos)`, with a missing entry modelled as `[]`
(the consumer only iterates over the entry). -/
def lookupTerms : List (Nat × List (List Char)) → Nat → List (List Char)
  | [], _ => []
  | (p, ts) :: rest, pos => if p = pos then ts else lookupTerms rest pos

/-- Phase 1 inner `while` loop of `findAllMatchPositions`, with the loop
guard `positions.length < MAX_MATCH_POSITIONS` expressed through the
remaining-budget counter `fuel = MAX_MATCH_POSITIONS - positions.length`
(each iteration pushes exactly one position, so the guard and the budget
agree at every iteration). -/
def scanWordGo (s w : List Char) : Nat → Nat → ScanState → ScanState
  | 0, _, st => st
  | fuel + 1, start, st =>
    match indexOfFrom s w start with
    | none => st
    | some pos => scanWordGo s w fuel (pos + w.length) (addPosition st pos w)

/-- Record every occurrence of `w`, advancing past each hit, while fewer
than `MAX_MATCH_POSITIONS` positions are recorded. -/
def scanWord (s w : List Char) (start : Nat) (st : ScanState) : ScanState :=
  scanWordGo s w (MAX_MATCH_POSITIONS - st.positions.length) start st

/-- Phase 1 of `findAllMatchPositions`: exact `indexOf` scan per query word. -/
def phase1 (lowerText : List Char) (queryWords : List (List Char)) : ScanState :=
  queryWords.foldl (fun st w => scanWord lowerText w 0 st) ⟨[], []⟩

/-- The fuzzy pairing test of Phase 2: length difference ≤ 2 and edit
distance ≤ 2 (the length guard short-circuits as in the source). -/
def closeMatch (tw qw : List Char) : Bool :=
  decide (((tw.length : Int) - (qw.length : Int)).natAbs ≤ 2) &&
    decide (levenshteinDistance tw qw ≤ 2)

/-- Phase 2 of `findAllMatchPositions`: Levenshtein fuzzy scan over the
document's words, with the running cursor and the cap check at the top of
the loop (`break` stops the whole scan). -/
def scanFuzzy (s : List Char) (queryWords : List (List Char)) :
    List (List Char) → Nat → ScanState → ScanState
  | [], _, st => st
  | tw :: rest, cursor, st =>
    if MAX_MATCH_POSITIONS ≤ st.positions.length then st
    else
      match indexOfFrom s tw cursor with
      | none => scanFuzzy s queryWords rest cursor st
      | some twStart =>
          let st1 := queryWords.foldl
            (fun acc qw => if closeMatch tw qw then addPosition acc twStart qw else acc) st
          scanFuzzy s queryWords rest (twStart + tw.length) st1

/-- Result record of `findAllMatchPositions`. -/
structure MatchScan where
  positions : List Nat
  matchCount : Nat
  positionTerms : List (Nat × List (List Char))

/-- `[...new Set(positions)].sort((a, b) => a - b)`. -/
def dedupSortPositions (l : List Nat) : List Nat :=
  l.dedup.insertionSort (· ≤ ·)

/-- `SearchEngine.findAllMatchPositions`: exact scan, fuzzy fallback only
on a total exact miss, then sorted deduplicated positions alongside the
raw match count and the per-position terms. -/
def findAllMatchPositions (lowerText : List Char) (queryWords : List (List Char)) :
    MatchScan :=
  let st1 := phase1 lowerText queryWords
  let st := if st1.positions.length = 0 then
      scanFuzzy lowerText queryWords (splitSeps lowerText) 0 st1
    else st1
  { positions := dedupSortPositions st.positions
    matchCount := st.positions.length
    positionTerms := st.positionTerms }

/-! ### `SearchEngine.extractSnippets` (`src/search/engine.ts`) -/

structure Snippet where
  text : List Char
  matchTerms : List (List Char)

/-- The greedy center-selection loop: walk sorted positions, accept one if
it is at least `minSep` beyond the last accepted center (`-Infinity`
initially, modelled by `none`), stop once `maxSnippets` are chosen.  The
accumulator is kept reversed. -/
def selectGo (minSep maxSnippets : Nat) :
    List Nat → Option Nat → List Nat → List Nat
  | [], _, acc => acc.reverse
  | p :: rest, lastSel, acc =>
    let ok := match lastSel with
      | none => true
      | some l => decide ((minSep : Int) ≤ (p : Int) - (l : Int))
    if ok then
      if maxSnippets ≤ acc.length + 1 then (p :: acc).reverse
      else selectGo minSep maxSnippets rest (some p) (p :: acc)
    else selectGo minSep maxSnippets rest lastSel acc

/-- Selected snippet centers for given positions. -/
def selectPositions (positions : List Nat) (maxSnippets contextChars : Nat) : List Nat :=
  selectGo (contextChars * 2) maxSnippets positions none []

/-- Build one snippet around a selected center position. -/
def mkSnippet (text : List Char) (queryWords : List (List Char))
    (positionTerms : List (Nat × List (List Char))) (contextChars pos : Nat) : Snippet :=
  let start := pos - contextChars
  let stop := min text.length (pos + contextChars)
  let base := trimStr ((text.drop start).take (stop - start))
  let t1 := if 0 < start then ("...").toList ++ base else base
  let t2 := if stop < text.length then t1 ++ ("...").toList else t1
  let snippetLower := toLowerStr t2
  let matchTerms := queryWords.filter (fun w => containsSub snippetLower w)
  let terms := lookupTerms positionTerms pos
  { text := t2
    matchTerms := terms.foldl (fun acc t => if t ∈ acc then acc else acc ++ [t]) matchTerms }

structure SnippetResult where
  snippets : List Snippet
  matchCount : Nat

/-- `SearchEngine.extractSnippets`. -/
def extractSnippets (text query : List Char) (maxSnippets contextChars : Nat) :
    SnippetResult :=
  if text = [] then { snippets := [], matchCount := 0 }
  else
    let lowerText := toLowerStr text
    let queryWords := tokenize query
    let scan := findAllMatchPositions lowerText queryWords
    if scan.positions = [] then
      let fallbackText := trimStr (text.take (contextChars * 2)) ++
        (if contextChars * 2 < text.length then ("...").toList else [])
      { snippets := [{ text := fallbackText, matchTerms := [] }], matchCount := 0 }
    else
      let selected := selectPositions scan.positions maxSnippets contextChars
      { snippets := selected.map (mkSnippet text queryWords scan.positionTerms contextChars)
        matchCount := scan.matchCount }

/-! ### Session query matcher (`logbook_read` handler in `src/index.ts`) -/

/-- The `matchesMessage` closure of the `logbook_read` handler: exact
substring path for every query word, else fuzzy fallback requiring every
query word to be close to some message token. -/
def matchesMessage (queryWords : List (List Char)) (text : List Char) : Bool :=
  if queryWords.length = 0 then false
  else
    let lower := toLowerStr text
    if queryWords.all (fun w => containsSub lower w) then true
    else
      let msgTokens := tokenize text
      queryWords.all (fun qw => msgTokens.any (fun mt => closeMatch mt qw))

/-- A session message (fields the matcher and windows use). -/
structure Message where
  role : List Char
  content : List Char
  timestamp : Option Int

/-- A loaded session. -/
structure Session where
  agent : List Char
  sessionId : List Char
  timestamp : Int
  project : Option (List Char)
  messages : List Message

/-- One registered Document Source (external collaborator, spec §6):
its `name` and its `getSession` capability, modelled as a finite map
from session id to session content (`null` ↦ `none`). -/
structure Source where
  name : List Char
  sessions : List (List Char × Session)

/-- `findParser(agent)`: `parsers.find((p) => p.name === agent)`. -/
def findParser (sources : List Source) (agent : List Char) : Option Source :=
  sources.find? (fun p => p.name == agent)

/-- `parser.getSession(sessionId)` on the modelled source. -/
def getSession (p : Source) (sessionId : List Char) : Option Session :=
  (p.sessions.find? (fun s => s.1 == sessionId)).map (fun s => s.2)

/-- `allMessages.map((m, i) => matches ? i : -1).filter((i) => i !== -1)`:
the indices of the matching messages, in order. -/
def matchIndices (queryWords : List (List Char)) (msgs : List Message) : List Nat :=
  (List.range msgs.length).filter
    (fun i => match msgs.get? i with
      | some m => matchesMessage queryWords m.content
      | none => false)

/-- A context window over a session's message array (`startIndex`,
`endIndex`, matched indices). -/
structure Window where
  start : Nat
  stop : Nat
  matchIndices : List Nat

/-- Raw per-match window `[idx - cw, idx + cw]` clamped to the session's
bounds. -/
def rawWindow (totalMessages cw idx : Nat) : Window :=
  { start := idx - cw
    stop := min (totalMessages - 1) (idx + cw)
    matchIndices := [idx] }

/-- One step of the merge loop: merge `win` into the accumulator's last
window when `win.start ≤ last.end + 1`, else start a new window.  The
accumulator is kept in reverse order. -/
def mergeStep (acc : List Window) (win : Window) : List Window :=
  match acc with
  | last :: rest =>
      if win.start ≤ last.stop + 1 then
        { start := last.start
          stop := max last.stop win.stop
          matchIndices := last.matchIndices ++ win.matchIndices } :: rest
      else win :: last :: rest
  | [] => [win]

/-- Merge contiguous-or-overlapping windows, as in the `allMatches`
branch of the `logbook_read` handler. -/
def mergeWindows (ws : List Window) : List Window :=
  (ws.foldl mergeStep []).reverse

/-- `messages.findIndex(...)`, with JS's `-1` for "none". -/
def findIndexOrNeg (queryWords : List (List Char)) (msgs : List Message) : Int :=
  match msgs.findIdx? (fun m => matchesMessage queryWords m.content) with
  | some i => (i : Int)
  | none => -1

/-- The observable response of the `logbook_read` handler.  A JS output
field that is simply absent is modelled by `false`/`none`. -/
structure ReadResponse where
  isError : Bool
  queryNotFound : Bool
  totalMatches : Option Nat
  windowedMatches : Option Nat
  windows : List Window
  messages : List Message
  matchedMessageIndex : Option Int

/-- The `logbook_read` tool handler (`src/index.ts`), from the parser
lookup through the `allMatches` and single-match modes.  `query` is JS
falsy when absent *or* the empty string. -/
def logbookRead (sources : List Source) (agent sessionId : List Char)
    (query : Option (List Char)) (contextWindow : Option Nat) (allMatches : Bool)
    (maxMatches : Option Nat) (offset : Option Nat) (limit : Option Nat) :
    ReadResponse :=
  match findParser sources agent with
  | none =>
      { isError := true, queryNotFound := false, totalMatches := none
        windowedMatches := none, windows := [], messages := []
        matchedMessageIndex := none }
  | some parser =>
    match getSession parser sessionId with
    | none =>
        { isError := true, queryNotFound := false, totalMatches := none
          windowedMatches := none, windows := [], messages := []
          matchedMessageIndex := none }
    | some session =>
      let allMessages := session.messages
      let totalMessages := allMessages.length
      let hasQuery : Bool := match query with
        | none => false
        | some q => !q.isEmpty
      let queryWords := if hasQuery then tokenize (query.getD []) else []
      if hasQuery && allMatches then
        let allMatchIndices := matchIndices queryWords allMessages
        if allMatchIndices.isEmpty then
          { isError := false, queryNotFound := true, totalMatches := some 0
            windowedMatches := none, windows := [], messages := []
            matchedMessageIndex := none }
        else
          let selectedMatches := match maxMatches with
            | some m => allMatchIndices.take m
            | none => allMatchIndices
          let cw := contextWindow.getD 0
          let rawWindows := selectedMatches.map (rawWindow totalMessages cw)
          let merged := mergeWindows rawWindows
          { isError := false, queryNotFound := false
            totalMatches := some allMatchIndices.length
            windowedMatches := some selectedMatches.length
            windows := merged, messages := [], matchedMessageIndex := none }
      else
        let mi : Option Int :=
          if hasQuery then some (findIndexOrNeg queryWords allMessages) else none
        let narrowed : List Message × Option Int :=
          match mi, contextWindow with
          | some i, some cw =>
              if i ≠ -1 then
                let start := (i - (cw : Int)).toNat
                let stop := min allMessages.length (i.toNat + cw + 1)
                ((allMessages.drop start).take (stop - start), some (i - start))
              else (allMessages, mi)
          | _, _ => (allMessages, mi)
        let mi1 := narrowed.2
        let sliceStart := match offset with
          | some o => if 0 < o then min o narrowed.1.length else 0
          | none => 0
        let paged0 := narrowed.1.drop sliceStart
        let paged := match limit with
          | some l => paged0.take l
          | none => paged0
        let matched : Bool := match mi1 with
          | some i => decide (i ≠ -1)
          | none => false
        { isError := false
          queryNotFound := hasQuery && !matched
          totalMatches := none, windowedMatches := none, windows := []
          messages := paged
          matchedMessageIndex :=
            if matched then (fun i => i + (sliceStart : Int)) <$> mi1 else none }

/-! ### `SearchEngine.search` post-processing pipeline (`src/search/engine.ts`) -/

/-- A `SearchableDocument` (the fields the engine reads). -/
structure SearchDoc where
  id : List Char
  agent : List Char
  sessionId : Option (List Char)
  timestamp : Option Int
  project : Option (List Char)
  filePath : Option (List Char)
  display : Option (List Char)
  text : List Char
  type : List Char
  messageCount : Option Nat

/-- A raw hit returned by the underlying full-text engine: the stored
metadata fields plus the engine-native relevance score (a float, modelled
as a real). -/
structure Hit where
  id : List Char
  score : ℝ
  agent : Option (List Char)
  sessionId : Option (List Char)
  timestamp : Option Int
  project : Option (List Char)
  type : Option (List Char)
  filePath : Option (List Char)
  display : Option (List Char)

/-- The `SearchOptions` fields consumed by the post-processing stages
(`agent` and `fuzzy` act inside the underlying engine, upstream of the
modelled stages). -/
structure EngineSearchOptions where
  query : List Char
  dateFrom : Option Int
  dateTo : Option Int
  project : Option (List Char)
  type : Option (List (List Char))
  minMessages : Option Nat
  limit : Option Nat
  maxSnippets : Option Nat

/-- JS truthiness of a numeric option (`undefined` and `0` are falsy). -/
def intTruthy : Option Int → Bool
  | none => false
  | some x => decide (x ≠ 0)

/-- The date post-filter body: `if (!ts) return true; if (from && ts < from)
return false; if (to && ts > to) return false; return true;`. -/
def dateKeep (dateFrom dateTo : Option Int) (ts : Option Int) : Bool :=
  if intTruthy ts = false then true
  else
    let t := ts.getD 0
    if intTruthy dateFrom && decide (t < dateFrom.getD 0) then false
    else if intTruthy dateTo && decide (dateTo.getD 0 < t) then false
    else true

/-- The date-range stage of `search`: applied only when `dateFrom` or
`dateTo` is set. -/
def datePostFilter (dateFrom dateTo : Option Int) (hits : List Hit) : List Hit :=
  if dateFrom.isSome || dateTo.isSome then
    hits.filter (fun r => dateKeep dateFrom dateTo r.timestamp)
  else hits

/-- `r.type ?? doc?.type ?? "conversation"` with the document looked up
only when the stored field is absent. -/
def resolveType (docs : List SearchDoc) (r : Hit) : List Char :=
  match r.type with
  | some t => t
  | none =>
    match docs.find? (fun d => d.id == r.id) with
    | some d => d.type
    | none => ("conversation").toList

/-- The document-type stage of `search`. -/
def typePostFilter (type? : Option (List (List Char))) (docs : List SearchDoc)
    (hits : List Hit) : List Hit :=
  match type? with
  | none => hits
  | some allowedTypes => hits.filter (fun r => allowedTypes.contains (resolveType docs r))

/-- The project-substring stage of `search` (`!proj ||
proj.toLowerCase().includes(projectFilter)`; an empty `project` option is
JS-falsy and skips the stage). -/
def projectPostFilter (project? : Option (List Char)) (hits : List Hit) : List Hit :=
  match project? with
  | none => hits
  | some p =>
    if p.isEmpty then hits
    else
      let projectFilter := toLowerStr p
      hits.filter (fun r =>
        match r.project with
        | none => true
        | some proj => proj.isEmpty || containsSub (toLowerStr proj) projectFilter)

/-- The minimum-message-count stage of `search`: documents without a
`messageCount` always pass. -/
def minMessagesPostFilter (min? : Option Nat) (docs : List SearchDoc)
    (hits : List Hit) : List Hit :=
  match min? with
  | none => hits
  | some m =>
    if m = 0 then hits
    else hits.filter (fun r =>
      match docs.find? (fun d => d.id == r.id) with
      | none => true
      | some d =>
        match d.messageCount with
        | none => true
        | some mc => m ≤ mc)

/-- All four post-filter stages in source order. -/
def filteredHits (opts : EngineSearchOptions) (hits : List Hit)
    (docs : List SearchDoc) : List Hit :=
  minMessagesPostFilter opts.minMessages docs
    (projectPostFilter opts.project
      (typePostFilter opts.type docs
        (datePostFilter opts.dateFrom opts.dateTo hits)))

/-- `lengthPenalty = textLen > 500 ? Math.log2(textLen / 500) : 0`. -/
noncomputable def lengthPenalty (textLen : Nat) : ℝ :=
  if 500 < textLen then Real.logb 2 ((textLen : ℝ) / 500) else 0

/-- `score: r.score / (1 + lengthPenalty * 0.5)`. -/
noncomputable def finalScore (rawScore : ℝ) (textLen : Nat) : ℝ :=
  rawScore / (1 + lengthPenalty textLen * 0.5)

/-- A mapped `SearchResult`. -/
structure SearchResultR where
  agent : List Char
  sessionId : Option (List Char)
  timestamp : Option Int
  project : Option (List Char)
  filePath : Option (List Char)
  type : List Char
  score : ℝ
  matchedText : List Char
  snippets : List Snippet
  matchCount : Nat
  messageCount : Option Nat
  display : Option (List Char)

/-- The per-hit mapping step of `search`: resolve the document by id,
apply the length penalty to the raw score, and extract snippets
(`timestamp: r.timestamp ? ... : undefined` drops a zero timestamp). -/
noncomputable def mapResult (docs : List SearchDoc) (query : List Char)
    (maxSnippets : Nat) (r : Hit) : SearchResultR :=
  let doc := docs.find? (fun d => d.id == r.id)
  let textLen := (doc.map (fun d => d.text.length)).getD 0
  let sr := extractSnippets ((doc.map (fun d => d.text)).getD []) query maxSnippets 150
  { agent := ((r.agent.orElse (fun _ => doc.map (fun d => d.agent))).getD
      (("claude").toList))
    sessionId := r.sessionId.orElse (fun _ => doc.bind (fun d => d.sessionId))
    timestamp := match r.timestamp with
      | some t => if t = 0 then none else some t
      | none => none
    project := r.project
    filePath := r.filePath.orElse (fun _ => doc.bind (fun d => d.filePath))
    type := (r.type.orElse (fun _ => doc.map (fun d => d.type))).getD
      (("conversation").toList)
    score := finalScore r.score textLen
    matchedText := ((sr.snippets.head?.map Snippet.text).getD [])
    snippets := sr.snippets
    matchCount := sr.matchCount
    messageCount := doc.bind (fun d => d.messageCount)
    display := r.display.orElse (fun _ => doc.bind (fun d => d.display)) }

/-- `search` post-processing end to end: filters, mapping with
length-normalized scores, re-sort descending by final score, truncate to
`limit ?? 20` (with `maxSnippets ?? 3`). -/
noncomputable def searchPipeline (opts : EngineSearchOptions) (hits : List Hit)
    (docs : List SearchDoc) : List SearchResultR :=
  let mapped := (filteredHits opts hits docs).map
    (mapResult docs opts.query (opts.maxSnippets.getD 3))
  let sorted := mapped.insertionSort (fun a b => b.score ≤ a.score)
  sorted.take (opts.limit.getD 20)

/-! ### Build-time deduplication (`SearchEngine.buildTier1`) -/

/-- The `seen`-set filter of `buildTier1`, with the set of already seen
ids as an accumulator. -/
def dedupGo (seen : List (List Char)) : List SearchDoc → List SearchDoc
  | [] => []
  | d :: rest =>
      if d.id ∈ seen then dedupGo seen rest
      else d :: dedupGo (d.id :: seen) rest

/-- `buildTier1`'s deduplication: keep the first occurrence of each id,
preserving order. -/
def dedupById (docs : List SearchDoc) : List SearchDoc := dedupGo [] docs

def mkMsg (content : List Char) : Message :=
  { role := ("user").toList, content := content, timestamp := none }

def c3Messages : List Message :=
  [mkMsg (("zz zz").toList), mkMsg (("zz zz").toList), mkMsg (("apple pie").toList),
   mkMsg (("apple pie").toList), mkMsg (("zz zz").toList), mkMsg (("zz zz").toList),
   mkMsg (("zz zz").toList), mkMsg (("apple pie").toList), mkMsg (("zz zz").toList),
   mkMsg (("zz zz").toList)]

def c3Session : Session :=
  { agent := ("claude").toList, sessionId := ("s1").toList, timestamp := 0
    project := none, messages := c3Messages }

def c3Sources : List Source :=
  [{ name := ("claude").toList, sessions := [(("s1").toList, c3Session)] }]

def c8Session : Session :=
  { agent := ("claude").toList, sessionId := ("s9").toList, timestamp := 0
    project := none, messages := [mkMsg (("hello world").toList)] }

def c8Sources : List Source :=
  [{ name := ("claude").toList, sessions := [(("s9").toList, c8Session)] }]

def c6Hit : Hit :=
  { id := ("d0").toList, score := 0, agent := none, sessionId := none
    timestamp := some 0, project := none, type := none, filePath := none
    display := none }

def c6wHit : Hit :=
  { id := ("d1").toList, score := 0, agent := none, sessionId := none
    timestamp := some 7, project := none, type := none, filePath := none
    display := none }

def c1Doc : SearchDoc :=
  { id := ("d1").toList, agent := ("claude").toList, sessionId := none
    timestamp := none, project := none, filePath := none, display := none
    text := ("hi").toList, type := ("conversation").toList, messageCount := none }

noncomputable def c1Hit : Hit :=
  { id := ("d1").toList, score := 1, agent := some (("claude").toList)
    sessionId := none, timestamp := none, project := none
    type := some (("conversation").toList), filePath := none, display := none }

def c1Opts : EngineSearchOptions :=
  { query := ("hi").toList, dateFrom := none, dateTo := none, project := none
    type := none, minMessages := none, limit := none, maxSnippets := none }

noncomputable def c1Res : SearchResultR := mapResult [c1Doc] c1Opts.query 3 c1Hit

/-! ### Claim C10 -/

/-- Every term list stored in the position-terms map draws from `qws`. -/
def TermsOK (qws : List (List Char)) (m : List (Nat × List (List Char))) : Prop :=
  ∀ e ∈ m, ∀ t ∈ e.2, t ∈ qws

def c10Doc : List Char := ("Help me implement authentication with JWT tokens").toList

def c10Snip : Snippet := { text := c10Doc, matchTerms := [("authentication").toList] }

/-- Spec-side ground truth for the fuzzy phase, from the spec's words:
walking the document's words with the running cursor, the start offset of
each word, paired with every query word within length-difference ≤ 2 and
edit distance ≤ 2 of it — with no position cap. -/
def fuzzySpecPairs (s : List Char) (queryWords : List (List Char)) :
    List (List Char) → Nat → List (Nat × List Char)
  | [], _ => []
  | tw :: rest, cursor =>
    match indexOfFrom s tw cursor with
    | none => fuzzySpecPairs s queryWords rest cursor
    | some twStart =>
        ((queryWords.filter (fun qw => closeMatch tw qw)).map fun qw => (twStart, qw))
          ++ fuzzySpecPairs s queryWords rest (twStart + tw.length)

def c2Doc : List Char := ("Help me implement authentication with JWT tokens").toList

def c2Query : List Char := ("autentication").toList

def capText : List Char :=
  (List.replicate 100 (("aa ").toList)).flatten ++ (("aa").toList)

theorem lev_nil_left (ys : List Char) : lev [] ys = ys.length := by
  simp [lev]

theorem lev_nil_right (xs : List Char) : lev xs [] = xs.length := by
  cases xs <;> simp [lev]

theorem lev_cons_cons (x : Char) (xs : List Char) (y : Char) (ys : List Char) :
    lev (x :: xs) (y :: ys) =
      if x = y then lev xs ys
      else 1 + min (lev xs (y :: ys)) (min (lev (x :: xs) ys) (lev xs ys)) := by
  rw [lev]

/-- The four one-character perturbation bounds on `lev`, proved jointly by
strong induction on the total length. -/
theorem lev_bounds :
    ∀ n (xs ys : List Char), xs.length + ys.length ≤ n →
      (∀ x, lev (x :: xs) ys ≤ 1 + lev xs ys) ∧
      (∀ y, lev xs (y :: ys) ≤ 1 + lev xs ys) ∧
      (∀ x, lev xs ys ≤ 1 + lev (x :: xs) ys) ∧
      (∀ y, lev xs ys ≤ 1 + lev xs (y :: ys)) := by
  intro n
  induction n with
  | zero =>
    intro xs ys h
    have hxs : xs = [] := by cases xs <;> simp_all
    have hys : ys = [] := by cases ys <;> simp_all
    subst hxs; subst hys
    refine ⟨fun x => ?_, fun y => ?_, fun x => ?_, fun y => ?_⟩ <;>
      simp [lev_nil_left, lev_nil_right]
  | succ n ih =>
    intro xs ys h
    refine ⟨?_, ?_, ?_, ?_⟩
    · -- delete: lev (x :: xs) ys ≤ 1 + lev xs ys
      intro x
      cases ys with
      | nil => simp [lev_nil_right]; omega
      | cons y ys1 =>
        rw [lev_cons_cons]
        split
        · have h3 := (ih xs ys1 (by simp at h ⊢; omega)).2.2.2 y
          omega
        · have : min (lev xs (y :: ys1)) (min (lev (x :: xs) ys1) (lev xs ys1)) ≤
              lev xs (y :: ys1) := by omega
          omega
    · -- insert: lev xs (y :: ys) ≤ 1 + lev xs ys
      intro y
      cases xs with
      | nil => simp [lev_nil_left]; omega
      | cons x1 xs1 =>
        rw [lev_cons_cons]
        split
        · have h4 := (ih xs1 ys (by simp at h ⊢; omega)).2.2.1 x1
          omega
        · have : min (lev xs1 (y :: ys)) (min (lev (x1 :: xs1) ys) (lev xs1 ys)) ≤
              lev (x1 :: xs1) ys := by omega
          omega
    · -- lev xs ys ≤ 1 + lev (x :: xs) ys
      intro x
      cases ys with
      | nil => simp [lev_nil_right]; omega
      | cons y ys1 =>
        rw [lev_cons_cons]
        split
        · have h1 := (ih xs ys1 (by simp at h ⊢; omega)).2.1 y
          omega
        · have h1 := (ih xs ys1 (by simp at h ⊢; omega)).2.1 y
          have h4 := (ih xs ys1 (by simp at h ⊢; omega)).2.2.1 x
          omega
    · -- lev xs ys ≤ 1 + lev xs (y :: ys)
      intro y
      cases xs with
      | nil => simp [lev_nil_left]; omega
      | cons x1 xs1 =>
        rw [lev_cons_cons]
        split
        · have h2 := (ih xs1 ys (by simp at h ⊢; omega)).1 x1
          omega
        · have h2 := (ih xs1 ys (by simp at h ⊢; omega)).1 x1
          have h3 := (ih xs1 ys (by simp at h ⊢; omega)).2.2.2 y
          omega

theorem lev_del_le (x : Char) (xs ys : List Char) :
    lev (x :: xs) ys ≤ 1 + lev xs ys :=
  (lev_bounds _ xs ys le_rfl).1 x

theorem lev_ins_le (y : Char) (xs ys : List Char) :
    lev xs (y :: ys) ≤ 1 + lev xs ys :=
  (lev_bounds _ xs ys le_rfl).2.1 y

theorem edits_nil_any (b : List Char) : Edits [] b b.length := by
  induction b with
  | nil => exact Edits.nil
  | cons y ys ih => exact Edits.ins y ih

theorem edits_any_nil (a : List Char) : Edits a [] a.length := by
  induction a with
  | nil => exact Edits.nil
  | cons x xs ih => exact Edits.del x ih

/-- `lev` is realized by an edit script. -/
theorem edits_lev : ∀ a b : List Char, Edits a b (lev a b) := by
  have main : ∀ n (a b : List Char), a.length + b.length ≤ n → Edits a b (lev a b) := by
    intro n
    induction n with
    | zero =>
      intro a b h
      have hxs : a = [] := by cases a <;> simp_all
      have hys : b = [] := by cases b <;> simp_all
      subst hxs; subst hys
      simpa [lev] using Edits.nil
    | succ n ih =>
      intro a b h
      match a, b with
      | [], b => simpa [lev_nil_left] using edits_nil_any b
      | x :: xs, [] => simpa [lev_nil_right] using edits_any_nil (x :: xs)
      | x :: xs, y :: ys =>
        rw [lev_cons_cons]
        by_cases hxy : x = y
        · subst hxy
          simpa [if_pos] using Edits.keep x (ih xs ys (by simp at h ⊢; omega))
        · rw [if_neg hxy]
          set A := lev xs (y :: ys) with hA
          set B := lev (x :: xs) ys with hB
          set C := lev xs ys with hC
          have hmin : min A (min B C) = A ∨ min A (min B C) = B ∨ min A (min B C) = C := by
            omega
          rcases hmin with hm | hm | hm
          · rw [hm, Nat.add_comm]
            exact Edits.del x (ih xs (y :: ys) (by simp at h ⊢; omega))
          · rw [hm, Nat.add_comm]
            exact Edits.ins y (ih (x :: xs) ys (by simp at h ⊢; omega))
          · rw [hm, Nat.add_comm]
            exact Edits.subst x y (ih xs ys (by simp at h ⊢; omega))
  exact fun a b => main (a.length + b.length) a b le_rfl

/-- `lev` is a lower bound on the size of any edit script. -/
theorem lev_le_of_edits {a b : List Char} {n : Nat} (h : Edits a b n) : lev a b ≤ n := by
  induction h with
  | nil => simp [lev]
  | keep x h ih => rw [lev_cons_cons]; simpa using ih
  | subst x y h ih =>
    rw [lev_cons_cons]
    split
    · omega
    · omega
  | @del xs ys m x h ih =>
    have := lev_del_le x xs ys
    omega
  | @ins xs ys m y h ih =>
    have := lev_ins_le y xs ys
    omega

theorem edits_symm {a b : List Char} {n : Nat} (h : Edits a b n) : Edits b a n := by
  induction h with
  | nil => exact Edits.nil
  | keep x _ ih => exact Edits.keep x ih
  | subst x y _ ih => exact Edits.subst y x ih
  | del x _ ih => exact Edits.ins x ih
  | ins y _ ih => exact Edits.del y ih

theorem edits_keep_snoc {a b : List Char} {n : Nat} (z : Char) (h : Edits a b n) :
    Edits (a ++ [z]) (b ++ [z]) n := by
  induction h with
  | nil => exact Edits.keep z Edits.nil
  | keep x _ ih => exact Edits.keep x ih
  | subst x y _ ih => exact Edits.subst x y ih
  | del x _ ih => exact Edits.del x ih
  | ins y _ ih => exact Edits.ins y ih

theorem edits_subst_snoc {a b : List Char} {n : Nat} (z w : Char) (h : Edits a b n) :
    Edits (a ++ [z]) (b ++ [w]) (n + 1) := by
  induction h with
  | nil => exact Edits.subst z w Edits.nil
  | keep x _ ih => exact Edits.keep x ih
  | subst x y _ ih => exact Edits.subst x y ih
  | del x _ ih => exact Edits.del x ih
  | ins y _ ih => exact Edits.ins y ih

theorem edits_del_snoc {a b : List Char} {n : Nat} (z : Char) (h : Edits a b n) :
    Edits (a ++ [z]) b (n + 1) := by
  induction h with
  | nil => exact Edits.del z Edits.nil
  | keep x _ ih => exact Edits.keep x ih
  | subst x y _ ih => exact Edits.subst x y ih
  | del x _ ih => exact Edits.del x ih
  | ins y _ ih => exact Edits.ins y ih

theorem edits_ins_snoc {a b : List Char} {n : Nat} (w : Char) (h : Edits a b n) :
    Edits a (b ++ [w]) (n + 1) := by
  induction h with
  | nil => exact Edits.ins w Edits.nil
  | keep x _ ih => exact Edits.keep x ih
  | subst x y _ ih => exact Edits.subst x y ih
  | del x _ ih => exact Edits.del x ih
  | ins y _ ih => exact Edits.ins y ih

theorem edits_reverse {a b : List Char} {n : Nat} (h : Edits a b n) :
    Edits a.reverse b.reverse n := by
  induction h with
  | nil => exact Edits.nil
  | keep x _ ih => simpa using edits_keep_snoc x ih
  | subst x y _ ih => simpa using edits_subst_snoc x y ih
  | del x _ ih => simpa using edits_del_snoc x ih
  | ins y _ ih => simpa using edits_ins_snoc y ih

theorem lev_reverse (a b : List Char) : lev a.reverse b.reverse = lev a b := by
  apply le_antisymm
  · exact lev_le_of_edits (edits_reverse (edits_lev a b))
  · have := lev_le_of_edits (edits_reverse (edits_lev a.reverse b.reverse))
    simpa using this

theorem lev_symm (a b : List Char) : lev a b = lev b a :=
  le_antisymm (lev_le_of_edits (edits_symm (edits_lev b a)))
    (lev_le_of_edits (edits_symm (edits_lev a b)))

theorem lev_eq_zero_iff : ∀ a b : List Char, lev a b = 0 ↔ a = b := by
  intro a
  induction a with
  | nil =>
    intro b
    cases b <;> simp [lev_nil_left]
  | cons x xs ih =>
    intro b
    cases b with
    | nil => simp [lev_nil_right]
    | cons y ys =>
      rw [lev_cons_cons]
      by_cases hxy : x = y
      · subst hxy
        simp [ih ys]
      · simp [hxy]

theorem levR_nil_right (p : List Char) : levR p [] = p.length := by
  simp [levR, lev_nil_right]

theorem levR_nil_left (q : List Char) : levR [] q = q.length := by
  simp [levR, lev_nil_left]

theorem levR_snoc_snoc (p q : List Char) (x y : Char) :
    levR (p ++ [x]) (q ++ [y]) =
      if x = y then levR p q
      else 1 + min (levR p (q ++ [y])) (min (levR (p ++ [x]) q) (levR p q)) := by
  simp only [levR, List.reverse_append, List.reverse_singleton, List.singleton_append]
  rw [lev_cons_cons]

theorem rowFrom_head (p acc : List Char) (bs : List Char) :
    rowFrom p acc bs = levR p acc :: (rowFrom p acc bs).tail := by
  cases bs <;> rfl

theorem levRow_rowFrom (x : Char) (p : List Char) :
    ∀ (bs acc : List Char),
      levRow x bs ((rowFrom p acc bs).tail) (levR p acc) (levR (p ++ [x]) acc) =
        (rowFrom (p ++ [x]) acc bs).tail := by
  intro bs
  induction bs with
  | nil => intro acc; rfl
  | cons y bs ih =>
    intro acc
    have hL : (rowFrom p acc (y :: bs)).tail = rowFrom p (acc ++ [y]) bs := rfl
    have hR : (rowFrom (p ++ [x]) acc (y :: bs)).tail =
        rowFrom (p ++ [x]) (acc ++ [y]) bs := rfl
    rw [hL, hR, rowFrom_head p (acc ++ [y]) bs, rowFrom_head (p ++ [x]) (acc ++ [y]) bs]
    rw [levRow]
    have hv : (if x = y then levR p acc
        else 1 + min (levR p acc) (min (levR p (acc ++ [y])) (levR (p ++ [x]) acc))) =
        levR (p ++ [x]) (acc ++ [y]) := by
      rw [levR_snoc_snoc]
      split
      · rfl
      · omega
    rw [hv]
    have := ih (acc ++ [y])
    rw [rowFrom_head p (acc ++ [y]) bs] at this
    simp only [List.tail_cons] at this
    rw [this]

theorem levNextRow_rowFrom (x : Char) (p b : List Char) :
    levNextRow x b (rowFrom p [] b) = rowFrom (p ++ [x]) [] b := by
  have h0 : levR p [] + 1 = levR (p ++ [x]) [] := by
    simp [levR_nil_right]
  have h1 := levRow_rowFrom x p b []
  rw [← h0] at h1
  conv_lhs => rw [rowFrom_head p [] b]
  rw [levNextRow, h1, h0, ← rowFrom_head (p ++ [x]) [] b]

theorem foldl_levNextRow (b : List Char) :
    ∀ (a p : List Char),
      a.foldl (fun r x => levNextRow x b r) (rowFrom p [] b) = rowFrom (p ++ a) [] b := by
  intro a
  induction a with
  | nil => intro p; simp
  | cons x a ih =>
    intro p
    simp only [List.foldl_cons]
    rw [levNextRow_rowFrom x p b, ih (p ++ [x])]
    simp

theorem rowFrom_nil_eq_range :
    ∀ (bs acc : List Char),
      rowFrom [] acc bs = (List.range (bs.length + 1)).map (fun j => acc.length + j) := by
  intro bs
  induction bs with
  | nil => intro acc; simp [rowFrom, levR_nil_left, List.range_succ]
  | cons y bs ih =>
    intro acc
    rw [rowFrom, ih (acc ++ [y])]
    conv_rhs => rw [List.range_succ_eq_map]
    simp only [List.length_append, List.length_singleton, List.map_cons, List.map_map]
    congr 1
    · simp [levR_nil_left]
    · apply List.map_congr_left
      intro j hj
      simp [Function.comp]
      omega

theorem getLastD_rowFrom :
    ∀ (bs p acc : List Char) (d : Nat), (rowFrom p acc bs).getLastD d = levR p (acc ++ bs) := by
  intro bs
  induction bs with
  | nil => intro p acc d; simp [rowFrom]
  | cons y bs ih =>
    intro p acc d
    rw [rowFrom, List.getLastD_cons, ih p (acc ++ [y]) (levR p acc)]
    simp

/-- The source's single-row DP agrees with the reference recursion. -/
theorem levenshteinDistance_eq_lev (a b : List Char) :
    levenshteinDistance a b = lev a b := by
  unfold levenshteinDistance
  have h0 : List.range (b.length + 1) = rowFrom [] [] b := by
    rw [rowFrom_nil_eq_range b []]
    simp
  rw [h0, foldl_levNextRow b a [], getLastD_rowFrom]
  simp [levR, lev_reverse]

/-! ### Basic lemmas about the embedded primitives -/

theorem isPrefixOf_nil_iff (pat : List Char) : pat.isPrefixOf ([] : List Char) = true ↔ pat = [] := by
  cases pat <;> simp [List.isPrefixOf]

theorem indexOfAux_isSome_iff (pat : List Char) :
    ∀ (s : List Char) (i : Nat), (indexOfAux pat s i).isSome = true ↔ pat <:+: s := by
  intro s
  induction s with
  | nil =>
    intro i
    simp only [indexOfAux]
    constructor
    · intro h
      split at h
      · next hp =>
          have := (isPrefixOf_nil_iff pat).mp hp
          simp [this]
      · simp at h
    · intro h
      have : pat = [] := List.eq_nil_of_infix_nil h
      simp [this, List.isPrefixOf]
  | cons c t ih =>
    intro i
    simp only [indexOfAux]
    constructor
    · intro h
      split at h
      · next hp => exact (List.isPrefixOf_iff_prefix.mp hp).isInfix
      · exact List.infix_cons ((ih (i + 1)).mp h)
    · intro h
      rcases List.infix_cons_iff.mp h with hp | hinf
      · simp [List.isPrefixOf_iff_prefix.mpr hp]
      · split
        · simp
        · exact (ih (i + 1)).mpr hinf

/-- `containsSub` decides the substring relation. -/
theorem containsSub_iff_isInfix (s pat : List Char) :
    containsSub s pat = true ↔ pat <:+: s := by
  have hmap : (Option.map (fun x => x + 0) (indexOfAux pat s 0)).isSome =
      (indexOfAux pat s 0).isSome := by
    cases indexOfAux pat s 0 <;> rfl
  simp only [containsSub, indexOfFrom, List.drop_zero, hmap]
  exact indexOfAux_isSome_iff pat s 0

theorem closeMatch_iff (tw qw : List Char) :
    closeMatch tw qw = true ↔
      ((tw.length : Int) - (qw.length : Int)).natAbs ≤ 2 ∧
        levenshteinDistance tw qw ≤ 2 := by
  simp [closeMatch]

/-! ### Claim C9 -/

/-- C9: the single-row dynamic-programming `levenshteinDistance` equals
the standard Levenshtein distance: it is the least size of an edit script
(single-character insertions, deletions, substitutions at unit cost)
transforming `a` into `b`; it is `0` exactly when `a = b`, and it is
symmetric.  (Values are `Nat`, hence non-negative.) -/
theorem levenshteinDistance_spec (a b : List Char) :
    IsLeast {n | Edits a b n} (levenshteinDistance a b) ∧
    (levenshteinDistance a b = 0 ↔ a = b) ∧
    levenshteinDistance a b = levenshteinDistance b a := by
  rw [levenshteinDistance_eq_lev, levenshteinDistance_eq_lev]
  exact ⟨⟨edits_lev a b, fun n hn => lev_le_of_edits hn⟩, lev_eq_zero_iff a b,
    lev_symm a b⟩

/-! ### Claim C4 -/

/-- C4: the per-message match predicate has AND semantics with an
exact-then-fuzzy structure: with `queryWords` the lowercased query tokens
of length > 1, a message matches iff either every query word is a
(case-insensitive) substring of the message text, or — only when that
exact path fails — every query word is within length-difference ≤ 2 and
edit distance ≤ 2 of some token of the message; with no query words, no
message matches. -/
theorem matchesMessage_spec (query text : List Char) :
    matchesMessage (tokenize query) text = true ↔
      (tokenize query ≠ [] ∧
        ((∀ w ∈ tokenize query, w <:+: toLowerStr text) ∨
          (¬ (∀ w ∈ tokenize query, w <:+: toLowerStr text) ∧
            ∀ qw ∈ tokenize query, ∃ mt ∈ tokenize text,
              ((mt.length : Int) - (qw.length : Int)).natAbs ≤ 2 ∧
                levenshteinDistance mt qw ≤ 2))) := by
  unfold matchesMessage
  by_cases hq : tokenize query = []
  · simp [hq]
  · have hlen : ¬ (tokenize query).length = 0 := by
      simpa [List.length_eq_zero] using hq
    simp only [if_neg hlen]
    by_cases hexact : (tokenize query).all (fun w => containsSub (toLowerStr text) w) = true
    · have hexact2 : ∀ w ∈ tokenize query, w <:+: toLowerStr text := by
        intro w hw
        exact (containsSub_iff_isInfix _ _).mp (by simpa using List.all_eq_true.mp hexact w hw)
      rw [if_pos hexact]
      exact iff_of_true rfl ⟨hq, Or.inl hexact2⟩
    · have hexact2 : ¬ ∀ w ∈ tokenize query, w <:+: toLowerStr text := by
        intro hall
        apply hexact
        refine List.all_eq_true.mpr fun w hw => ?_
        simpa using (containsSub_iff_isInfix _ _).mpr (hall w hw)
      rw [if_neg hexact]
      constructor
      · intro h
        refine ⟨hq, Or.inr ⟨hexact2, ?_⟩⟩
        intro qw hqw
        have := List.all_eq_true.mp h qw hqw
        rcases List.any_eq_true.mp (by simpa using this) with ⟨mt, hmt, hc⟩
        exact ⟨mt, hmt, (closeMatch_iff mt qw).mp hc⟩
      · rintro ⟨-, hfz | ⟨-, hfz⟩⟩
        · exact absurd hfz hexact2
        · refine List.all_eq_true.mpr fun qw hqw => ?_
          rcases hfz qw hqw with ⟨mt, hmt, hc⟩
          simpa using List.any_eq_true.mpr ⟨mt, hmt, (closeMatch_iff mt qw).mpr hc⟩

/-! ### Claim C7 -/

theorem dedupGo_sublist :
    ∀ (seen : List (List Char)) (l : List SearchDoc), (dedupGo seen l).Sublist l := by
  intro seen l
  induction l generalizing seen with
  | nil => simp [dedupGo]
  | cons d rest ih =>
    simp only [dedupGo]
    split
    · exact (ih seen).cons d
    · exact (ih _).cons₂ d

theorem dedupGo_nodup_and_seen :
    ∀ (seen : List (List Char)) (l : List SearchDoc),
      ((dedupGo seen l).map SearchDoc.id).Nodup ∧
        ∀ d ∈ dedupGo seen l, d.id ∉ seen := by
  intro seen l
  induction l generalizing seen with
  | nil => simp [dedupGo]
  | cons d rest ih =>
    simp only [dedupGo]
    split
    · exact ih seen
    · next hmem =>
      have ih2 := ih (d.id :: seen)
      refine ⟨?_, ?_⟩
      · simp only [List.map_cons, List.nodup_cons]
        refine ⟨?_, ih2.1⟩
        intro hcontra
        rcases List.mem_map.mp hcontra with ⟨e, he, heq⟩
        have := ih2.2 e he
        simp [heq] at this
      · intro e he
        rcases List.mem_cons.mp he with he | he
        · subst he; exact hmem
        · have := ih2.2 e he
          intro hc
          exact this (List.mem_cons_of_mem _ hc)

theorem dedupGo_mem_iff :
    ∀ (seen : List (List Char)) (l : List SearchDoc) (d : SearchDoc),
      d ∈ dedupGo seen l ↔
        (d.id ∉ seen ∧ l.find? (fun e => e.id == d.id) = some d) := by
  intro seen l
  induction l generalizing seen with
  | nil => intro d; simp [dedupGo]
  | cons e rest ih =>
    intro d
    simp only [dedupGo, List.find?_cons]
    by_cases hid : e.id = d.id
    · simp only [hid, beq_self_eq_true]
      split
      · next hseen =>
        rw [ih seen d]
        constructor
        · rintro ⟨hn, -⟩; exact absurd (hid ▸ hseen) hn
        · rintro ⟨hn, -⟩; exact absurd (hid ▸ hseen) hn
      · next hseen =>
        simp only [List.mem_cons]
        constructor
        · rintro (rfl | hmem)
          · exact ⟨hid ▸ hseen, rfl⟩
          · have := (ih (d.id :: seen) d).mp hmem
            exact absurd (List.mem_cons_self d.id seen) this.1
        · rintro ⟨hn, heq⟩
          exact Or.inl (Option.some.inj heq).symm
    · have hbeq : (e.id == d.id) = false := by
        simpa using hid
      simp only [hbeq]
      split
      · next hseen => exact ih seen d
      · next hseen =>
        simp only [List.mem_cons]
        rw [ih (e.id :: seen) d]
        constructor
        · rintro (rfl | ⟨hn, hf⟩)
          · exact absurd rfl hid
          · refine ⟨fun hc => hn (List.mem_cons_of_mem _ hc), hf⟩
        · rintro ⟨hn, hf⟩
          refine Or.inr ⟨?_, hf⟩
          intro hc
          rcases List.mem_cons.mp hc with hc | hc
          · exact hid hc.symm
          · exact hn hc

theorem dedupGo_find? :
    ∀ (seen : List (List Char)) (l : List SearchDoc) (idv : List Char),
      idv ∉ seen →
        (dedupGo seen l).find? (fun d => d.id == idv) =
          l.find? (fun d => d.id == idv) := by
  intro seen l
  induction l generalizing seen with
  | nil => intro idv h; simp [dedupGo]
  | cons e rest ih =>
    intro idv hnot
    simp only [dedupGo]
    by_cases hid : e.id = idv
    · split
      · next hseen => exact absurd (hid ▸ hseen) hnot
      · next hseen =>
        simp [List.find?_cons, hid]
    · have hbeq : (e.id == idv) = false := by simpa using hid
      split
      · next hseen =>
        rw [ih seen idv hnot, List.find?_cons, hbeq]
      · next hseen =>
        rw [List.find?_cons, List.find?_cons, hbeq]
        exact ih (e.id :: seen) idv (by
          intro hc
          rcases List.mem_cons.mp hc with hc | hc
          · exact hid hc.symm
          · exact hnot hc)

/-- C7: build-time deduplication keeps the first occurrence per id and
preserves order: the deduplicated document list is a sublist of the
collected sequence (order preserved), its ids are pairwise distinct, a
document survives iff it is the first-collected document with its id, and
resolving any id over the deduplicated list finds exactly what resolving
it over the collected sequence finds — so a later-built duplicate is
never the resolved document of any search result. -/
theorem dedup_build_spec (docs : List SearchDoc) :
    (dedupById docs).Sublist docs ∧
    ((dedupById docs).map SearchDoc.id).Nodup ∧
    (∀ d : SearchDoc, d ∈ dedupById docs ↔
      docs.find? (fun e => e.id == d.id) = some d) ∧
    (∀ idv : List Char,
      (dedupById docs).find? (fun d => d.id == idv) =
        docs.find? (fun d => d.id == idv)) := by
  refine ⟨dedupGo_sublist [] docs, (dedupGo_nodup_and_seen [] docs).1, ?_, ?_⟩
  · intro d
    rw [dedupById, dedupGo_mem_iff [] docs d]
    simp
  · intro idv
    exact dedupGo_find? [] docs idv (by simp)

/-! ### Claim C3 -/

theorem mergeStep_chain (acc : List Window) (w : Window)
    (h : List.Chain' (fun a b => b.stop + 1 < a.start) acc) :
    List.Chain' (fun a b => b.stop + 1 < a.start) (mergeStep acc w) := by
  cases acc with
  | nil => simp [mergeStep]
  | cons last tail =>
    simp only [mergeStep]
    split
    · rw [List.chain'_cons'] at h ⊢
      exact ⟨fun y hy => h.1 y hy, h.2⟩
    · next hnot =>
      rw [List.chain'_cons']
      refine ⟨?_, h⟩
      intro y hy
      simp only [List.head?_cons, Option.mem_def, Option.some.injEq] at hy
      subst hy
      omega

theorem mergeFold_chain :
    ∀ (ws : List Window) (acc : List Window),
      List.Chain' (fun a b => b.stop + 1 < a.start) acc →
      List.Chain' (fun a b => b.stop + 1 < a.start) (ws.foldl mergeStep acc) := by
  intro ws
  induction ws with
  | nil => intro acc h; simpa using h
  | cons w rest ih =>
    intro acc h
    exact ih (mergeStep acc w) (mergeStep_chain acc w h)

/-- Adjacent windows in the merged output are never themselves mergeable:
merging happened exactly on the `start ≤ stop + 1` condition. -/
theorem mergeWindows_chain (ws : List Window) :
    List.Chain' (fun a b => a.stop + 1 < b.start) (mergeWindows ws) := by
  rw [mergeWindows, List.chain'_reverse]
  exact mergeFold_chain ws [] (by simp)

theorem mergeStep_flat (acc : List Window) (w : Window) :
    (mergeStep acc w).reverse.flatMap Window.matchIndices =
      acc.reverse.flatMap Window.matchIndices ++ w.matchIndices := by
  cases acc with
  | nil => simp [mergeStep]
  | cons last tail =>
    simp only [mergeStep]
    split
    · simp [List.flatMap_append]
    · simp [List.flatMap_append]

theorem mergeFold_flat :
    ∀ (ws acc : List Window),
      (ws.foldl mergeStep acc).reverse.flatMap Window.matchIndices =
        acc.reverse.flatMap Window.matchIndices ++ ws.flatMap Window.matchIndices := by
  intro ws
  induction ws with
  | nil => intro acc; simp
  | cons w rest ih =>
    intro acc
    simp only [List.foldl_cons, List.flatMap_cons]
    rw [ih (mergeStep acc w), mergeStep_flat]
    simp [List.append_assoc]

/-- The merged windows carry exactly the original matched indices, in
order. -/
theorem mergeWindows_flat (ws : List Window) :
    (mergeWindows ws).flatMap Window.matchIndices =
      ws.flatMap Window.matchIndices := by
  have := mergeFold_flat ws []
  simpa [mergeWindows] using this

/-- C3: in all-matches mode, raw per-match windows clamped to session
bounds are merged exactly when the next window's start is at most the
previous window's end + 1 (so adjacent output windows are never
mergeable), the merged windows carrying the union of the matched indices;
in particular, for a 10-message session with matches at {2, 3, 7} and
`contextWindow = 1`, exactly two windows are returned: [1, 4] with
matched indices {2, 3} and [6, 8] with matched index {7}. -/
theorem allMatches_windows_spec :
    (∀ ws : List Window,
      List.Chain' (fun a b => a.stop + 1 < b.start) (mergeWindows ws) ∧
      (mergeWindows ws).flatMap Window.matchIndices =
        ws.flatMap Window.matchIndices) ∧
    matchIndices (tokenize (("apple").toList)) c3Messages = [2, 3, 7] ∧
    (logbookRead c3Sources (("claude").toList) (("s1").toList)
        (some (("apple").toList)) (some 1) true none none none).windows =
      [{ start := 1, stop := 4, matchIndices := [2, 3] },
       { start := 6, stop := 8, matchIndices := [7] }] := by
  exact ⟨fun ws => ⟨mergeWindows_chain ws, mergeWindows_flat ws⟩, by rfl, by rfl⟩

/-! ### Claim C8 -/

/-- C8: at the message-matching (read) layer, lookup failures and empty
matches are distinguished.  (1) The response is an error exactly when the
named source has no registered parser or the source returns `null` for
the session id.  (2) A valid session with a query matching no message in
all-matches mode yields a non-error response carrying `queryNotFound`
with zero total matches.  (3) Likewise in single-match mode, a zero-match
query yields a non-error response flagged `queryNotFound`. -/
theorem logbookRead_error_spec :
    (∀ (sources : List Source) (agent sessionId : List Char) (q : Option (List Char))
        (cw : Option Nat) (am : Bool) (mm off lim : Option Nat),
      (logbookRead sources agent sessionId q cw am mm off lim).isError = true ↔
        (findParser sources agent = none ∨
          ∃ p, findParser sources agent = some p ∧ getSession p sessionId = none)) ∧
    (∀ (sources : List Source) (agent sessionId q : List Char) (cw mm off lim : Option Nat)
        (p : Source) (sess : Session),
      findParser sources agent = some p →
      getSession p sessionId = some sess →
      q.isEmpty = false →
      matchIndices (tokenize q) sess.messages = [] →
      (logbookRead sources agent sessionId (some q) cw true mm off lim).isError = false ∧
      (logbookRead sources agent sessionId (some q) cw true mm off lim).queryNotFound = true ∧
      (logbookRead sources agent sessionId (some q) cw true mm off lim).totalMatches =
        some 0) ∧
    (∀ (sources : List Source) (agent sessionId q : List Char) (cw mm off lim : Option Nat)
        (p : Source) (sess : Session),
      findParser sources agent = some p →
      getSession p sessionId = some sess →
      q.isEmpty = false →
      findIndexOrNeg (tokenize q) sess.messages = -1 →
      (logbookRead sources agent sessionId (some q) cw false mm off lim).isError = false ∧
      (logbookRead sources agent sessionId (some q) cw false mm off lim).queryNotFound =
        true) := by
  refine ⟨?_, ?_, ?_⟩
  · intro sources agent sessionId q cw am mm off lim
    cases hfp : findParser sources agent with
    | none => simp [logbookRead, hfp]
    | some p =>
      cases hgs : getSession p sessionId with
      | none => simp [logbookRead, hfp, hgs]
      | some sess =>
        have hfalse : (logbookRead sources agent sessionId q cw am mm off lim).isError =
            false := by
          simp only [logbookRead, hfp, hgs]
          repeat (first | rfl | split)
        rw [hfalse]
        simp only [Bool.false_eq_true, false_iff]
        rintro (h | ⟨p2, hp2, hgs2⟩)
        · exact Option.noConfusion h
        · have : p2 = p := (Option.some.inj hp2).symm
          subst this
          rw [hgs] at hgs2
          exact Option.noConfusion hgs2
  · intro sources agent sessionId q cw mm off lim p sess hfp hgs hq hmi
    simp [logbookRead, hfp, hgs, hq, hmi]
  · intro sources agent sessionId q cw mm off lim p sess hfp hgs hq hidx
    cases cw with
    | none => simp [logbookRead, hfp, hgs, hq, hidx]
    | some c => simp [logbookRead, hfp, hgs, hq, hidx]

/-- Witness for C8 at a concrete source registry: a session whose single
message matches neither exactly nor fuzzily, queried for `"zebra"` in
both modes. -/
theorem logbookRead_error_spec_witness :
    ((logbookRead c8Sources (("claude").toList) (("s9").toList)
        (some (("zebra").toList)) none true none none none).isError = false ∧
      (logbookRead c8Sources (("claude").toList) (("s9").toList)
        (some (("zebra").toList)) none true none none none).queryNotFound = true ∧
      (logbookRead c8Sources (("claude").toList) (("s9").toList)
        (some (("zebra").toList)) none true none none none).totalMatches = some 0) ∧
    ((logbookRead c8Sources (("claude").toList) (("s9").toList)
        (some (("zebra").toList)) none false none none none).isError = false ∧
      (logbookRead c8Sources (("claude").toList) (("s9").toList)
        (some (("zebra").toList)) none false none none none).queryNotFound = true) := by
  constructor
  · exact logbookRead_error_spec.2.1 c8Sources (("claude").toList) (("s9").toList)
      (("zebra").toList) none none none none
      { name := ("claude").toList, sessions := [(("s9").toList, c8Session)] } c8Session
      (by rfl) (by rfl) (by rfl) (by decide)
  · exact logbookRead_error_spec.2.2 c8Sources (("claude").toList) (("s9").toList)
      (("zebra").toList) none none none none
      { name := ("claude").toList, sessions := [(("s9").toList, c8Session)] } c8Session
      (by rfl) (by rfl) (by rfl) (by decide)

/-! ### Claim C6 -/

theorem dateKeep_iff (dateFrom dateTo ts : Option Int) :
    dateKeep dateFrom dateTo ts = true ↔
      ∀ t, ts = some t → t ≠ 0 →
        ((∀ f, dateFrom = some f → f ≠ 0 → f ≤ t) ∧
          (∀ g, dateTo = some g → g ≠ 0 → t ≤ g)) := by
  unfold dateKeep intTruthy
  cases ts with
  | none => simp
  | some t =>
    by_cases ht : t = 0
    · simp [ht]
    · simp only [ht, decide_eq_true_eq, Option.getD_some, Option.some.injEq]
      cases dateFrom with
      | none =>
        cases dateTo with
        | none => simp
        | some g => simp; omega
      | some f =>
        cases dateTo with
        | none => simp [ht]; omega
        | some g => simp [ht]; omega

/-- Counterexample to C6 as stated: with `dateFrom` set to epoch-millis
1000, a hit whose stored timestamp is *present* and equal to 0 violates
`dateFrom ≤ timestamp`, yet the filter keeps it (`if (!ts) return true`
treats the number 0 as absent). -/
theorem dateFilter_zero_cex :
    datePostFilter (some 1000) none [c6Hit] = [c6Hit] ∧
    c6Hit.timestamp = some 0 ∧
    ¬ ((1000 : Int) ≤ 0) :=
  ⟨rfl, rfl, by decide⟩

/-- C6 (amended): for every search with `dateFrom` and/or `dateTo` set, a
hit is kept iff it was among the hits and, whenever its stored timestamp
is present *and non-zero*, each bound that is set *to a non-zero value*
holds inclusively (`dateFrom ≤ ts` and `ts ≤ dateTo`); hits without a
timestamp — and, by JS falsiness, hits with timestamp 0 — are always
kept, and a bound set to 0 is ignored. -/
theorem datePostFilter_spec (dateFrom dateTo : Option Int) (hits : List Hit) (r : Hit)
    (hset : dateFrom.isSome ∨ dateTo.isSome) :
    r ∈ datePostFilter dateFrom dateTo hits ↔
      (r ∈ hits ∧
        ∀ t, r.timestamp = some t → t ≠ 0 →
          ((∀ f, dateFrom = some f → f ≠ 0 → f ≤ t) ∧
            (∀ g, dateTo = some g → g ≠ 0 → t ≤ g))) := by
  unfold datePostFilter
  have hcond : (dateFrom.isSome || dateTo.isSome) = true := by
    rcases hset with h | h <;> simp [h]
  rw [if_pos hcond, List.mem_filter, dateKeep_iff]

/-- Witness for C6 (amended) at a concrete hit with timestamp 7 and
`dateFrom = 5`. -/
theorem datePostFilter_spec_witness :
    c6wHit ∈ datePostFilter (some 5) none [c6wHit] ↔
      (c6wHit ∈ [c6wHit] ∧
        ∀ t, c6wHit.timestamp = some t → t ≠ 0 →
          ((∀ f, (some (5 : Int)) = some f → f ≠ 0 → f ≤ t) ∧
            (∀ g, (none : Option Int) = some g → g ≠ 0 → t ≤ g))) :=
  datePostFilter_spec (some 5) none [c6wHit] c6wHit (Or.inl rfl)

/-! ### Claim C1 -/

theorem lengthPenalty_nonneg (L : Nat) : 0 ≤ lengthPenalty L := by
  unfold lengthPenalty
  split
  · next h =>
    apply Real.logb_nonneg one_lt_two
    rw [le_div_iff (by norm_num : (0 : ℝ) < 500)]
    have : (500 : ℝ) ≤ (L : ℝ) := by exact_mod_cast Nat.le_of_lt h
    linarith
  · exact le_rfl

theorem lengthPenalty_mono {L1 L2 : Nat} (h : L1 ≤ L2) :
    lengthPenalty L1 ≤ lengthPenalty L2 := by
  unfold lengthPenalty
  split <;> split
  · next h1 h2 =>
    apply Real.logb_le_logb_of_le one_lt_two
    · apply div_pos _ (by norm_num : (0 : ℝ) < 500)
      exact_mod_cast Nat.lt_of_le_of_lt (Nat.zero_le 500) h1
    · exact (div_le_div_right (by norm_num : (0 : ℝ) < 500)).mpr (by exact_mod_cast h)
  · next h1 h2 => omega
  · next h1 h2 =>
    apply Real.logb_nonneg one_lt_two
    rw [le_div_iff (by norm_num : (0 : ℝ) < 500)]
    have : (500 : ℝ) ≤ (L2 : ℝ) := by exact_mod_cast Nat.le_of_lt h2
    linarith
  · exact le_rfl

theorem finalScore_antitone {raw : ℝ} {L1 L2 : Nat} (hraw : 0 ≤ raw) (h : L1 ≤ L2) :
    finalScore raw L2 ≤ finalScore raw L1 := by
  unfold finalScore
  have hp1 := lengthPenalty_nonneg L1
  have hp2 := lengthPenalty_nonneg L2
  have hm := lengthPenalty_mono h
  have hd1 : (0 : ℝ) < 1 + lengthPenalty L1 * 0.5 := by nlinarith
  have hle : 1 + lengthPenalty L1 * 0.5 ≤ 1 + lengthPenalty L2 * 0.5 := by nlinarith
  exact div_le_div_of_nonneg_left hraw hd1 hle

/-- C1: every returned search result's score is the raw engine score
divided by `1 + 0.5 * log2(L / 500)` when the resolved document's text
length `L` exceeds 500, and the raw score unchanged otherwise; and the
final score is antitone in text length at any fixed non-negative raw
score, so of two hits with equal raw score the shorter text scores at
least as high. -/
theorem search_score_spec :
    (∀ (opts : EngineSearchOptions) (hits : List Hit) (docs : List SearchDoc)
        (res : SearchResultR),
      res ∈ searchPipeline opts hits docs →
        ∃ r ∈ filteredHits opts hits docs,
          res = mapResult docs opts.query (opts.maxSnippets.getD 3) r ∧
          res.score =
            (if 500 <
                ((docs.find? (fun d => d.id == r.id)).map (fun d => d.text.length)).getD 0
              then r.score / (1 + Real.logb 2
                (((((docs.find? (fun d => d.id == r.id)).map
                    (fun d => d.text.length)).getD 0 : Nat) : ℝ) / 500) * 0.5)
              else r.score)) ∧
    (∀ (raw : ℝ) (L1 L2 : Nat), 0 ≤ raw → L1 ≤ L2 →
      finalScore raw L2 ≤ finalScore raw L1) := by
  constructor
  · intro opts hits docs res hres
    unfold searchPipeline at hres
    have h1 : res ∈ (filteredHits opts hits docs).map
        (mapResult docs opts.query (opts.maxSnippets.getD 3)) := by
      have h2 := List.take_subset _ _ hres
      exact (List.perm_insertionSort _ _).mem_iff.mp h2
    rcases List.mem_map.mp h1 with ⟨r, hr, heq⟩
    refine ⟨r, hr, heq.symm, ?_⟩
    rw [← heq]
    show finalScore r.score _ = _
    unfold finalScore lengthPenalty
    split
    · rfl
    · simp
  · intro raw L1 L2 hraw h
    exact finalScore_antitone hraw h

/-- Witness for C1: a singleton pipeline instance, plus the antitonicity
instance at raw score 1, lengths 400 ≤ 4000. -/
theorem search_score_spec_witness :
    (∃ r ∈ filteredHits c1Opts [c1Hit] [c1Doc],
      c1Res = mapResult [c1Doc] c1Opts.query (c1Opts.maxSnippets.getD 3) r ∧
      c1Res.score =
        (if 500 <
            (([c1Doc].find? (fun d => d.id == r.id)).map (fun d => d.text.length)).getD 0
          then r.score / (1 + Real.logb 2
            ((((([c1Doc].find? (fun d => d.id == r.id)).map
                (fun d => d.text.length)).getD 0 : Nat) : ℝ) / 500) * 0.5)
          else r.score)) ∧
    finalScore 1 4000 ≤ finalScore 1 400 := by
  constructor
  · apply search_score_spec.1 c1Opts [c1Hit] [c1Doc] c1Res
    have h : searchPipeline c1Opts [c1Hit] [c1Doc] = [c1Res] := rfl
    rw [h]
    exact List.mem_singleton_self _
  · exact search_score_spec.2 1 400 4000 zero_le_one (by decide)

/-! ### Claim C5 -/

theorem selectGo_length_le :
    ∀ (ps : List Nat) (minSep maxS : Nat) (lastSel : Option Nat) (acc : List Nat),
      acc.length < maxS →
      (selectGo minSep maxS ps lastSel acc).length ≤ maxS := by
  intro ps
  induction ps with
  | nil =>
    intro minSep maxS lastSel acc hacc
    simp only [selectGo, List.length_reverse]
    omega
  | cons p rest ih =>
    intro minSep maxS lastSel acc hacc
    simp only [selectGo]
    split
    · split
      · next hstop =>
        simp only [List.length_reverse, List.length_cons]
        omega
      · next hgo =>
        exact ih _ _ (some p) (p :: acc) (by simp; omega)
    · exact ih _ _ lastSel acc hacc

theorem selectGo_pairwise :
    ∀ (ps : List Nat) (minSep maxS : Nat) (lastSel : Option Nat) (acc : List Nat),
      List.Sorted (· ≤ ·) ps →
      (match lastSel with
        | none => acc = []
        | some l => (∀ p ∈ ps, l ≤ p) ∧ (∀ q ∈ acc, q ≤ l)) →
      List.Pairwise (fun p q => p + minSep ≤ q) acc.reverse →
      List.Pairwise (fun p q => p + minSep ≤ q) (selectGo minSep maxS ps lastSel acc) := by
  intro ps
  induction ps with
  | nil =>
    intro minSep maxS lastSel acc hs hinv hpw
    simpa [selectGo] using hpw
  | cons p rest ih =>
    intro minSep maxS lastSel acc hs hinv hpw
    have hrest : List.Sorted (· ≤ ·) rest := (List.sorted_cons.mp hs).2
    have hfut : ∀ q ∈ rest, p ≤ q := (List.sorted_cons.mp hs).1
    cases lastSel with
    | none =>
      subst hinv
      simp only [selectGo]
      split
      · split
        · simp
        · exact ih minSep maxS (some p) [p] hrest ⟨hfut, by simp⟩ (by simp)
      · exact ih minSep maxS none [] hrest rfl (by simp)
    | some l =>
      obtain ⟨hlfut, haccle⟩ := hinv
      have hlp : l ≤ p := hlfut p (List.mem_cons_self p rest)
      simp only [selectGo]
      split
      · next hok =>
        have hsep : l + minSep ≤ p := by
          have := of_decide_eq_true hok
          omega
        have hpw2 : List.Pairwise (fun a b => a + minSep ≤ b) (p :: acc).reverse := by
          simp only [List.reverse_cons]
          rw [List.pairwise_append]
          refine ⟨hpw, by simp, ?_⟩
          intro a ha b hb
          simp only [List.mem_singleton] at hb
          subst hb
          have : a ≤ l := haccle a (List.mem_reverse.mp ha)
          omega
        split
        · exact hpw2
        · refine ih minSep maxS (some p) (p :: acc) hrest ⟨hfut, ?_⟩ hpw2
          intro q hq
          rcases List.mem_cons.mp hq with rfl | hq
          · exact le_rfl
          · exact le_trans (haccle q hq) (by omega)
      · refine ih minSep maxS (some l) acc hrest ⟨?_, haccle⟩ hpw
        intro q hq
        exact le_trans hlp (hfut q hq)

theorem dedupSortPositions_sorted (l : List Nat) :
    List.Sorted (· ≤ ·) (dedupSortPositions l) :=
  List.sorted_insertionSort _ _

/-- Counterexample to C5 as stated: at `maxSnippets = 0` the greedy loop
pushes a center before checking the cap, so the extractor returns one
snippet, exceeding `maxSnippets`. -/
theorem extractSnippets_zero_cex :
    (extractSnippets (("hello world").toList) (("hello").toList) 0 150).snippets.length
        = 1 ∧
    ¬ ((1 : Nat) ≤ 0) :=
  ⟨rfl, by decide⟩

/-- C5 (amended): for `maxSnippets ≥ 1` the extractor returns at most
`maxSnippets` snippets; the greedily selected snippet centers are
pairwise at least `2 × contextChars` apart in the original text; and when
matches exist the returned snippets are exactly the windows built around
those centers. -/
theorem extractSnippets_nonoverlap_spec (text query : List Char)
    (maxSnippets contextChars : Nat) (h : 1 ≤ maxSnippets) :
    (extractSnippets text query maxSnippets contextChars).snippets.length ≤ maxSnippets ∧
    List.Pairwise (fun p q => p + 2 * contextChars ≤ q)
      (selectPositions (findAllMatchPositions (toLowerStr text) (tokenize query)).positions
        maxSnippets contextChars) ∧
    (text ≠ [] →
      (findAllMatchPositions (toLowerStr text) (tokenize query)).positions ≠ [] →
      (extractSnippets text query maxSnippets contextChars).snippets =
        (selectPositions
            (findAllMatchPositions (toLowerStr text) (tokenize query)).positions
            maxSnippets contextChars).map
          (mkSnippet text (tokenize query)
            (findAllMatchPositions (toLowerStr text) (tokenize query)).positionTerms
            contextChars)) := by
  refine ⟨?_, ?_, ?_⟩
  · unfold extractSnippets
    split
    · simp
    · by_cases hpos :
        (findAllMatchPositions (toLowerStr text) (tokenize query)).positions = []
      · rw [if_pos hpos]
        simpa using h
      · rw [if_neg hpos]
        simp only [List.length_map]
        exact selectGo_length_le _ _ _ none [] (by simp; omega)
  · have hsortedpos : List.Sorted (· ≤ ·)
        (findAllMatchPositions (toLowerStr text) (tokenize query)).positions := by
      unfold findAllMatchPositions
      exact dedupSortPositions_sorted _
    have := selectGo_pairwise
      (findAllMatchPositions (toLowerStr text) (tokenize query)).positions
      (contextChars * 2) maxSnippets none [] hsortedpos rfl (by simp)
    exact this.imp (by omega)
  · intro htext hpos
    unfold extractSnippets
    rw [if_neg htext, if_neg hpos]

/-- Witness for C5 (amended) at a concrete document and query with
`maxSnippets = 1`. -/
theorem extractSnippets_nonoverlap_spec_witness :
    (extractSnippets (("hello world").toList) (("hello").toList) 1 150).snippets.length
        ≤ 1 ∧
    List.Pairwise (fun p q => p + 2 * 150 ≤ q)
      (selectPositions
        (findAllMatchPositions (toLowerStr (("hello world").toList))
          (tokenize (("hello").toList))).positions 1 150) ∧
    ((("hello world").toList) ≠ [] →
      (findAllMatchPositions (toLowerStr (("hello world").toList))
        (tokenize (("hello").toList))).positions ≠ [] →
      (extractSnippets (("hello world").toList) (("hello").toList) 1 150).snippets =
        (selectPositions
            (findAllMatchPositions (toLowerStr (("hello world").toList))
              (tokenize (("hello").toList))).positions 1 150).map
          (mkSnippet (("hello world").toList) (tokenize (("hello").toList))
            (findAllMatchPositions (toLowerStr (("hello world").toList))
              (tokenize (("hello").toList))).positionTerms 150)) :=
  extractSnippets_nonoverlap_spec (("hello world").toList) (("hello").toList) 1 150
    (by decide)

theorem updateTerms_ok {qws : List (List Char)} {term : List Char}
    (hterm : term ∈ qws) :
    ∀ {m : List (Nat × List (List Char))} (pos : Nat),
      TermsOK qws m → TermsOK qws (updateTerms m pos term) := by
  intro m
  induction m with
  | nil =>
    intro pos hm
    intro e he t ht
    simp only [updateTerms, List.mem_singleton] at he
    subst he
    simp only [List.mem_singleton] at ht
    subst ht
    exact hterm
  | cons e0 rest ih =>
    intro pos hm
    obtain ⟨p0, ts0⟩ := e0
    simp only [updateTerms]
    split
    · intro e he t ht
      rcases List.mem_cons.mp he with rfl | he
      · simp only at ht
        split at ht
        · exact hm (p0, ts0) (List.mem_cons_self _ _) t ht
        · rcases List.mem_append.mp ht with ht | ht
          · exact hm (p0, ts0) (List.mem_cons_self _ _) t ht
          · simp only [List.mem_singleton] at ht
            subst ht
            exact hterm
      · exact hm e (List.mem_cons_of_mem _ he) t ht
    · intro e he t ht
      rcases List.mem_cons.mp he with rfl | he
      · exact hm (p0, ts0) (List.mem_cons_self _ _) t ht
      · exact ih pos (fun e2 he2 => hm e2 (List.mem_cons_of_mem _ he2)) e he t ht

theorem addPosition_ok {qws : List (List Char)} {st : ScanState} {pos : Nat}
    {term : List Char} (hterm : term ∈ qws) (hst : TermsOK qws st.positionTerms) :
    TermsOK qws (addPosition st pos term).positionTerms :=
  updateTerms_ok hterm pos hst

theorem scanWordGo_ok {qws : List (List Char)} {s w : List Char} (hw : w ∈ qws) :
    ∀ (fuel start : Nat) (st : ScanState),
      TermsOK qws st.positionTerms →
      TermsOK qws (scanWordGo s w fuel start st).positionTerms := by
  intro fuel
  induction fuel with
  | zero => intro start st h; exact h
  | succ n ih =>
    intro start st h
    simp only [scanWordGo]
    cases indexOfFrom s w start with
    | none => exact h
    | some pos => exact ih _ _ (addPosition_ok hw h)

theorem phase1_ok (s : List Char) (qws : List (List Char)) :
    TermsOK qws (phase1 s qws).positionTerms := by
  have main : ∀ (l : List (List Char)) (st : ScanState),
      (∀ w ∈ l, w ∈ qws) → TermsOK qws st.positionTerms →
      TermsOK qws ((l.foldl (fun st w => scanWord s w 0 st) st)).positionTerms := by
    intro l
    induction l with
    | nil => intro st _ h; exact h
    | cons w rest ih =>
      intro st hsub h
      exact ih _ (fun v hv => hsub v (List.mem_cons_of_mem _ hv))
        (scanWordGo_ok (hsub w (List.mem_cons_self _ _)) _ _ _ h)
  exact main qws ⟨[], []⟩ (fun w hw => hw) (by intro e he; simp at he)

theorem foldl_close_ok {qws : List (List Char)} {tw : List Char} {twStart : Nat} :
    ∀ (l : List (List Char)) (st : ScanState),
      (∀ qw ∈ l, qw ∈ qws) → TermsOK qws st.positionTerms →
      TermsOK qws ((l.foldl
        (fun acc qw => if closeMatch tw qw then addPosition acc twStart qw else acc)
        st)).positionTerms := by
  intro l
  induction l with
  | nil => intro st _ h; exact h
  | cons qw rest ih =>
    intro st hsub h
    simp only [List.foldl_cons]
    apply ih _ (fun v hv => hsub v (List.mem_cons_of_mem _ hv))
    split
    · exact addPosition_ok (hsub qw (List.mem_cons_self _ _)) h
    · exact h

theorem scanFuzzy_ok {qws : List (List Char)} {s : List Char} :
    ∀ (tokens : List (List Char)) (cursor : Nat) (st : ScanState),
      TermsOK qws st.positionTerms →
      TermsOK qws (scanFuzzy s qws tokens cursor st).positionTerms := by
  intro tokens
  induction tokens with
  | nil => intro cursor st h; exact h
  | cons tw rest ih =>
    intro cursor st h
    simp only [scanFuzzy]
    split
    · exact h
    · cases indexOfFrom s tw cursor with
      | none => exact ih _ _ h
      | some twStart =>
        exact ih _ _ (foldl_close_ok qws _ (fun qw hq => hq) h)

theorem findAllMatchPositions_ok (s : List Char) (qws : List (List Char)) :
    TermsOK qws (findAllMatchPositions s qws).positionTerms := by
  by_cases h0 : (phase1 s qws).positions.length = 0
  · simp only [findAllMatchPositions, if_pos h0]
    exact scanFuzzy_ok _ _ _ (phase1_ok s qws)
  · simp only [findAllMatchPositions, if_neg h0]
    exact phase1_ok s qws

theorem lookupTerms_ok {qws : List (List Char)} :
    ∀ {m : List (Nat × List (List Char))} (pos : Nat),
      TermsOK qws m → ∀ t ∈ lookupTerms m pos, t ∈ qws := by
  intro m
  induction m with
  | nil => intro pos _ t ht; simp [lookupTerms] at ht
  | cons e rest ih =>
    intro pos h t ht
    obtain ⟨p0, ts0⟩ := e
    simp only [lookupTerms] at ht
    split at ht
    · exact h (p0, ts0) (List.mem_cons_self _ _) t ht
    · exact ih pos (fun e2 he2 => h e2 (List.mem_cons_of_mem _ he2)) t ht

theorem foldl_insert_mem :
    ∀ (ts init : List (List Char)) (t : List Char),
      t ∈ ts.foldl (fun acc u => if u ∈ acc then acc else acc ++ [u]) init →
      t ∈ init ∨ t ∈ ts := by
  intro ts
  induction ts with
  | nil => intro init t h; exact Or.inl h
  | cons u rest ih =>
    intro init t h
    simp only [List.foldl_cons] at h
    rcases ih _ t h with hin | hin
    · split at hin
      · exact Or.inl hin
      · rcases List.mem_append.mp hin with hin | hin
        · exact Or.inl hin
        · simp only [List.mem_singleton] at hin
          subst hin
          exact Or.inr (List.mem_cons_self _ _)
    · exact Or.inr (List.mem_cons_of_mem _ hin)

/-- C10: every snippet's `matchTerms` contains only query tokens — each
string in each returned snippet's `matchTerms` is an element of the
lowercased length-> 1 token list of the query (the fuzzy phase records
the matching *query* word, never the matched document word). -/
theorem snippet_matchTerms_spec (text query : List Char)
    (maxSnippets contextChars : Nat) :
    ∀ sn ∈ (extractSnippets text query maxSnippets contextChars).snippets,
      ∀ t ∈ sn.matchTerms, t ∈ tokenize query := by
  intro sn hsn t ht
  unfold extractSnippets at hsn
  split at hsn
  · simp at hsn
  · by_cases hpos :
      (findAllMatchPositions (toLowerStr text) (tokenize query)).positions = []
    · rw [if_pos hpos] at hsn
      simp only [List.mem_singleton] at hsn
      subst hsn
      simp at ht
    · rw [if_neg hpos] at hsn
      rcases List.mem_map.mp hsn with ⟨pos, hposmem, heq⟩
      subst heq
      unfold mkSnippet at ht
      simp only at ht
      rcases foldl_insert_mem _ _ t ht with hin | hin
      · exact (List.mem_filter.mp hin).1
      · exact lookupTerms_ok pos (findAllMatchPositions_ok _ _) t hin

/-- Witness for C10 at a concrete document, query `"authentication"`. -/
theorem snippet_matchTerms_spec_witness :
    ("authentication").toList ∈ tokenize (("authentication").toList) := by
  have hs : c10Snip ∈
      (extractSnippets c10Doc (("authentication").toList) 3 150).snippets := by
    have h : (extractSnippets c10Doc (("authentication").toList) 3 150).snippets =
        [c10Snip] := rfl
    rw [h]
    exact List.mem_singleton_self _
  exact snippet_matchTerms_spec c10Doc (("authentication").toList) 3 150 c10Snip hs
    (("authentication").toList) (List.mem_singleton_self _)

/-! ### Claim C2 -/

theorem scanWordGo_append (s w : List Char) :
    ∀ (fuel start : Nat) (st : ScanState),
      ∃ d, (scanWordGo s w fuel start st).positions = st.positions ++ d := by
  intro fuel
  induction fuel with
  | zero => intro start st; exact ⟨[], by simp [scanWordGo]⟩
  | succ n ih =>
    intro start st
    simp only [scanWordGo]
    cases indexOfFrom s w start with
    | none => exact ⟨[], by simp⟩
    | some pos =>
      rcases ih (pos + w.length) (addPosition st pos w) with ⟨d, hd⟩
      refine ⟨pos :: d, ?_⟩
      rw [hd]
      simp [addPosition]

theorem scanWordGo_len_le (s w : List Char) :
    ∀ (fuel start : Nat) (st : ScanState),
      (scanWordGo s w fuel start st).positions.length ≤ st.positions.length + fuel := by
  intro fuel
  induction fuel with
  | zero => intro start st; simp [scanWordGo]
  | succ n ih =>
    intro start st
    simp only [scanWordGo]
    cases hidx : indexOfFrom s w start with
    | none => simp
    | some pos =>
      show (scanWordGo s w n (pos + w.length) (addPosition st pos w)).positions.length ≤
        st.positions.length + (n + 1)
      have := ih (pos + w.length) (addPosition st pos w)
      have hlen : (addPosition st pos w).positions.length = st.positions.length + 1 := by
        simp [addPosition]
      omega

theorem scanWord_le_100 (s w : List Char) (start : Nat) (st : ScanState)
    (h : st.positions.length ≤ 100) :
    (scanWord s w start st).positions.length ≤ 100 := by
  unfold scanWord
  have := scanWordGo_len_le s w (MAX_MATCH_POSITIONS - st.positions.length) start st
  have hmax : MAX_MATCH_POSITIONS = 100 := rfl
  omega

theorem phase1_le_100 (s : List Char) (qws : List (List Char)) :
    (phase1 s qws).positions.length ≤ 100 := by
  have main : ∀ (l : List (List Char)) (st : ScanState),
      st.positions.length ≤ 100 →
      ((l.foldl (fun st w => scanWord s w 0 st) st)).positions.length ≤ 100 := by
    intro l
    induction l with
    | nil => intro st h; exact h
    | cons w rest ih =>
      intro st h
      exact ih _ (scanWord_le_100 s w 0 st h)
  exact main qws ⟨[], []⟩ (by simp)

theorem phase1_empty (s : List Char) (qws : List (List Char))
    (h : (phase1 s qws).positions = []) :
    ∀ w ∈ qws, indexOfFrom s w 0 = none := by
  have main : ∀ (l : List (List Char)) (st : ScanState),
      ((l.foldl (fun st w => scanWord s w 0 st) st)).positions = [] →
      st.positions = [] ∧ ∀ w ∈ l, indexOfFrom s w 0 = none := by
    intro l
    induction l with
    | nil => intro st h0; exact ⟨h0, by simp⟩
    | cons w rest ih =>
      intro st h0
      simp only [List.foldl_cons] at h0
      rcases ih (scanWord s w 0 st) h0 with ⟨hsw, hrest⟩
      rcases scanWordGo_append s w (MAX_MATCH_POSITIONS - st.positions.length) 0 st
        with ⟨d, hd⟩
      rw [show scanWord s w 0 st = scanWordGo s w
        (MAX_MATCH_POSITIONS - st.positions.length) 0 st from rfl] at hsw
      rw [hd] at hsw
      rcases List.append_eq_nil.mp hsw with ⟨hst, hdnil⟩
      refine ⟨hst, ?_⟩
      intro v hv
      rcases List.mem_cons.mp hv with rfl | hv
      · by_contra hne
        cases hidx : indexOfFrom s v 0 with
        | none => exact hne hidx
        | some pos =>
          have hfuel : MAX_MATCH_POSITIONS - st.positions.length = 100 := by
            rw [hst]; rfl
          rw [hfuel] at hd
          rw [show (100 : Nat) = 99 + 1 from rfl] at hd
          have hstep : scanWordGo s v (99 + 1) 0 st =
              scanWordGo s v 99 (pos + v.length) (addPosition st pos v) := by
            rw [scanWordGo, hidx]
          rw [hstep] at hd
          rcases scanWordGo_append s v 99 (pos + v.length) (addPosition st pos v)
            with ⟨d2, hd2⟩
          rw [hd2, hst, hdnil] at hd
          simp [addPosition] at hd
      · exact hrest v hv
  exact fun w hw => (main qws ⟨[], []⟩ h).2 w hw

theorem phase1_nonempty (s : List Char) (qws : List (List Char)) (w : List Char)
    (hw : w ∈ qws) (hc : containsSub s w = true) :
    (phase1 s qws).positions ≠ [] := by
  intro hempty
  have := phase1_empty s qws hempty w hw
  unfold containsSub indexOfFrom at hc
  rw [show indexOfFrom s w 0 = (indexOfAux w (s.drop 0) 0).map (· + 0) from rfl] at this
  rw [this] at hc
  simp at hc

theorem findAll_exact (s : List Char) (qws : List (List Char))
    (h : (phase1 s qws).positions ≠ []) :
    findAllMatchPositions s qws =
      { positions := dedupSortPositions (phase1 s qws).positions
        matchCount := (phase1 s qws).positions.length
        positionTerms := (phase1 s qws).positionTerms } := by
  have hlen : ¬ (phase1 s qws).positions.length = 0 := by
    simpa [List.length_eq_zero] using h
  simp only [findAllMatchPositions, if_neg hlen]

theorem foldl_close_positions (qws : List (List Char)) (st : ScanState)
    (tw : List Char) (twStart : Nat) :
    ((qws.foldl
        (fun acc qw => if closeMatch tw qw then addPosition acc twStart qw else acc)
        st)).positions =
      st.positions ++ (qws.filter (fun qw => closeMatch tw qw)).map
        (fun _ => twStart) := by
  induction qws generalizing st with
  | nil => simp
  | cons qw rest ih =>
    simp only [List.foldl_cons, List.filter_cons]
    by_cases hc : closeMatch tw qw = true
    · rw [if_pos hc, if_pos hc, ih (addPosition st twStart qw)]
      simp [addPosition]
    · rw [if_neg hc, if_neg hc]
      exact ih st

theorem scanFuzzy_spec (s : List Char) (qws : List (List Char)) :
    ∀ (tokens : List (List Char)) (cursor : Nat) (st : ScanState),
      st.positions.length + (fuzzySpecPairs s qws tokens cursor).length ≤ 100 →
      (scanFuzzy s qws tokens cursor st).positions =
        st.positions ++ (fuzzySpecPairs s qws tokens cursor).map Prod.fst := by
  intro tokens
  induction tokens with
  | nil => intro cursor st h; simp [scanFuzzy, fuzzySpecPairs]
  | cons tw rest ih =>
    intro cursor st h
    by_cases hg : MAX_MATCH_POSITIONS ≤ st.positions.length
    · simp only [scanFuzzy, if_pos hg]
      have hmax : MAX_MATCH_POSITIONS = 100 := rfl
      have hlen0 : (fuzzySpecPairs s qws (tw :: rest) cursor).length = 0 := by omega
      rw [List.length_eq_zero.mp hlen0]
      simp
    · simp only [scanFuzzy, if_neg hg]
      cases hidx : indexOfFrom s tw cursor with
      | none =>
        have hpairs : fuzzySpecPairs s qws (tw :: rest) cursor =
            fuzzySpecPairs s qws rest cursor := by
          simp [fuzzySpecPairs, hidx]
        rw [hpairs] at h ⊢
        exact ih cursor st h
      | some twStart =>
        have hfold := foldl_close_positions qws st tw twStart
        have hpairs : fuzzySpecPairs s qws (tw :: rest) cursor =
            ((qws.filter (fun qw => closeMatch tw qw)).map fun qw => (twStart, qw))
              ++ fuzzySpecPairs s qws rest (twStart + tw.length) := by
          simp [fuzzySpecPairs, hidx]
        rw [hpairs] at h ⊢
        rw [ih (twStart + tw.length) _ (by
          rw [hfold]
          simp only [List.length_append, List.length_map] at h ⊢
          omega)]
        rw [hfold]
        simp [List.map_map, Function.comp, List.append_assoc]

theorem findAll_fuzzy (lowerText : List Char) (qws : List (List Char))
    (h0 : (phase1 lowerText qws).positions = [])
    (hcap : (fuzzySpecPairs lowerText qws (splitSeps lowerText) 0).length ≤ 100) :
    (findAllMatchPositions lowerText qws).positions =
      dedupSortPositions
        ((fuzzySpecPairs lowerText qws (splitSeps lowerText) 0).map Prod.fst) := by
  have hlen : (phase1 lowerText qws).positions.length = 0 := by simp [h0]
  simp only [findAllMatchPositions, if_pos hlen]
  rw [scanFuzzy_spec lowerText qws (splitSeps lowerText) 0 (phase1 lowerText qws)
    (by omega)]
  rw [h0]
  simp

/-- C2 (amended): snippet match-position finding is two-phase with fuzzy
only on total exact miss.  (1) If some tokenized query word occurs as a
substring of the lowercased text, the exact phase records a position, the
scan result is exactly the exact phase's (the fuzzy scan contributes
nothing), and at most 100 positions are recorded.  (2) When the exact
phase records zero positions, the recorded positions are exactly the
cursor-scan start offsets of document words having some query word within
length-difference ≤ 2 and edit distance ≤ 2 — provided the total number
of such fuzzy matches is at most 100 (the position cap also applies to
the fuzzy scan).  (3) For a document containing "authentication",
querying "autentication" yields a non-empty snippet although the exact
phase finds zero positions. -/
theorem findAllMatchPositions_spec :
    (∀ text query : List Char,
      (∃ w ∈ tokenize query, w <:+: toLowerStr text) →
        (phase1 (toLowerStr text) (tokenize query)).positions ≠ [] ∧
        findAllMatchPositions (toLowerStr text) (tokenize query) =
          { positions :=
              dedupSortPositions (phase1 (toLowerStr text) (tokenize query)).positions
            matchCount := (phase1 (toLowerStr text) (tokenize query)).positions.length
            positionTerms := (phase1 (toLowerStr text) (tokenize query)).positionTerms } ∧
        (phase1 (toLowerStr text) (tokenize query)).positions.length ≤ 100) ∧
    (∀ (lowerText : List Char) (queryWords : List (List Char)),
      (phase1 lowerText queryWords).positions = [] →
      (fuzzySpecPairs lowerText queryWords (splitSeps lowerText) 0).length ≤ 100 →
      (findAllMatchPositions lowerText queryWords).positions =
        dedupSortPositions
          ((fuzzySpecPairs lowerText queryWords (splitSeps lowerText) 0).map
            Prod.fst)) ∧
    ((phase1 (toLowerStr c2Doc) (tokenize c2Query)).positions = [] ∧
      ∃ sn ∈ (extractSnippets c2Doc c2Query 3 150).snippets, sn.text ≠ []) := by
  refine ⟨?_, ?_, ?_, ?_⟩
  · rintro text query ⟨w, hw, hinf⟩
    have hne : (phase1 (toLowerStr text) (tokenize query)).positions ≠ [] :=
      phase1_nonempty _ _ w hw ((containsSub_iff_isInfix _ _).mpr hinf)
    exact ⟨hne, findAll_exact _ _ hne, phase1_le_100 _ _⟩
  · intro lowerText queryWords h0 hcap
    exact findAll_fuzzy lowerText queryWords h0 hcap
  · decide
  · refine ⟨{ text := c2Doc, matchTerms := [c2Query] }, ?_, by decide⟩
    have h : (extractSnippets c2Doc c2Query 3 150).snippets =
        [{ text := c2Doc, matchTerms := [c2Query] }] := rfl
    rw [h]
    exact List.mem_singleton_self _

set_option maxRecDepth 40000 in
/-- Counterexample to C2 as stated: in a document of 101 words `"aa"` with
query word `"ab"`, the exact phase records nothing, the 101st word starts
at offset 300 and is within length-difference ≤ 2 and edit distance ≤ 2
of the query word, yet offset 300 is not recorded — the fuzzy scan also
stops at the 100-position cap. -/
theorem findAllMatchPositions_cap_cex :
    (phase1 capText (tokenize (("ab").toList))).positions = [] ∧
    (300, ("ab").toList) ∈
      fuzzySpecPairs capText (tokenize (("ab").toList)) (splitSeps capText) 0 ∧
    300 ∉ (findAllMatchPositions capText (tokenize (("ab").toList))).positions := by
  refine ⟨by decide, by decide, by decide⟩

/-- Witness for C2 (amended): part (1) at a document that contains the
query word exactly, part (2) at a document with no exact and no fuzzy
match for the query. -/
theorem findAllMatchPositions_spec_witness :
    ((phase1 (toLowerStr (("authentication").toList))
        (tokenize (("authentication").toList))).positions ≠ [] ∧
      findAllMatchPositions (toLowerStr (("authentication").toList))
          (tokenize (("authentication").toList)) =
        { positions := dedupSortPositions
            (phase1 (toLowerStr (("authentication").toList))
              (tokenize (("authentication").toList))).positions
          matchCount := (phase1 (toLowerStr (("authentication").toList))
            (tokenize (("authentication").toList))).positions.length
          positionTerms := (phase1 (toLowerStr (("authentication").toList))
            (tokenize (("authentication").toList))).positionTerms } ∧
      (phase1 (toLowerStr (("authentication").toList))
        (tokenize (("authentication").toList))).positions.length ≤ 100) ∧
    (findAllMatchPositions (("help me").toList) (tokenize (("xyz").toList))).positions =
      dedupSortPositions
        ((fuzzySpecPairs (("help me").toList) (tokenize (("xyz").toList))
          (splitSeps (("help me").toList)) 0).map Prod.fst) := by
  constructor
  · exact findAllMatchPositions_spec.1 (("authentication").toList)
      (("authentication").toList)
      ⟨("authentication").toList, by decide, by decide⟩
  · exact findAllMatchPositions_spec.2.1 (("help me").toList)
      (tokenize (("xyz").toList)) (by decide) (by decide)

end Logbook
